import Mathlib

/-!
# Verification of the `num-rational` ratio core

A shallow embedding of `src/lib.rs` of the `num-rational` crate, with the
backing integer type `T` modelled as `ℤ` (checked arithmetic over a bounded
`T` is modelled with explicit bounds).  Rust's truncated division `/` and
remainder `%` are `Int.tdiv` / `Int.tmod`; `num-integer`'s `div_mod_floor`
is `Int.fdiv` / `Int.fmod`; `Integer::gcd` (always non-negative) is
`Int.gcd`.  A Rust `panic!` is modelled as `Option.none`.  Recursive
functions of the source (`Ord::cmp`, the `Hash` helper) are embedded with
an explicit fuel argument so that they stay executable; fuel exhaustion is
also `none`, and the adequacy theorems show the chosen fuel always
suffices on the inputs in question.
-/

namespace NumRational

/-- Rust `Ord::cmp` on an integer type: `Less`/`Equal`/`Greater`. -/
def intCmp (a b : ℤ) : Ordering :=
  if a < b then .lt else if b < a then .gt else .eq

/-- Comparison of two exact rational values, used to state what the
source's overflow-free comparison is supposed to compute. -/
def ratOrd (x y : ℚ) : Ordering :=
  if x < y then .lt else if y < x then .gt else .eq

/-- The exact rational value represented by a numerator/denominator pair. -/
def pv (n d : ℤ) : ℚ := (n : ℚ) / (d : ℚ)

/-- `Ord for Ratio<T>::cmp` (src/lib.rs lines 373-421), with fuel.
Step 1: equal denominators compare numerators (reversed for a negative
shared denominator).  Step 2: equal numerators compare denominators
inversely (unless the shared numerator is negative).  Step 3: compare the
`div_mod_floor` quotients; on a tie, a zero remainder sorts below a
non-zero one, and two non-zero remainders are compared through their
reciprocals, reversed.  `none` models a Rust panic (`div_mod_floor` by
zero) or fuel exhaustion. -/
def ratioCmpF : ℕ → ℤ → ℤ → ℤ → ℤ → Option Ordering
  | 0, _, _, _, _ => none
  | fuel + 1, an, ad, bn, bd =>
    if ad = bd then
      some (if ad < 0 then (intCmp an bn).swap else intCmp an bn)
    else if an = bn then
      some (if an < 0 then intCmp ad bd else (intCmp ad bd).swap)
    else if ad = 0 ∨ bd = 0 then
      none
    else
      let ai := Int.fdiv an ad
      let ar := Int.fmod an ad
      let bi := Int.fdiv bn bd
      let br := Int.fmod bn bd
      match intCmp ai bi with
      | .gt => some .gt
      | .lt => some .lt
      | .eq =>
        if ar = 0 then
          if br = 0 then some .eq else some .lt
        else if br = 0 then some .gt
        else (ratioCmpF fuel ad ar bd br).map Ordering.swap

/-- `Ord for Ratio<T>::cmp` with the fuel instantiated at a provably
sufficient value (Euclidean descent on the first denominator). -/
def ratioCmp (an ad bn bd : ℤ) : Option Ordering :=
  ratioCmpF (ad.natAbs + 1) an ad bn bd

/-- `Ratio::reduce` (src/lib.rs lines 122-140): divide both fields by
their gcd (Rust `/` is truncated division), then negate both fields if
the denominator is negative. -/
def reducePair (n d : ℤ) : ℤ × ℤ :=
  if d.tdiv (Int.gcd n d) < 0 then
    (0 - n.tdiv (Int.gcd n d), 0 - d.tdiv (Int.gcd n d))
  else
    (n.tdiv (Int.gcd n d), d.tdiv (Int.gcd n d))

/-- `Ratio::new` (src/lib.rs lines 72-81): panic (`none`) on a zero
denominator, otherwise reduce. -/
def ratioNew (n d : ℤ) : Option (ℤ × ℤ) :=
  if d = 0 then none else some (reducePair n d)

/-- `Ratio::new_raw` (src/lib.rs lines 89-96). -/
def ratioNewRaw (n d : ℤ) : ℤ × ℤ := (n, d)

/-- `Ratio::from_integer` (src/lib.rs lines 83-87). -/
def ratioFromInteger (t : ℤ) : ℤ × ℤ := ratioNewRaw t 1

/-- `Ratio::recip` (src/lib.rs lines 152-165): panic (`none`) on a zero
numerator; otherwise swap the fields, negating both when the numerator is
negative. -/
def ratioRecip (n d : ℤ) : Option (ℤ × ℤ) :=
  match intCmp n 0 with
  | .eq => none
  | .gt => some (ratioNewRaw d n)
  | .lt => some (ratioNewRaw (0 - d) (0 - n))

/-- `Neg for Ratio<T>` (src/lib.rs lines 983-993): `new_raw(-numer, denom)`. -/
def ratioNeg (p : ℤ × ℤ) : ℤ × ℤ := ratioNewRaw (-p.1) p.2

/-- `Zero::zero` for `Ratio<T>` (src/lib.rs line 1034). -/
def ratioZero : ℤ × ℤ := ratioNewRaw 0 1

/-- `One::one` for `Ratio<T>` (src/lib.rs line 1046). -/
def ratioOne : ℤ × ℤ := ratioNewRaw 1 1

/-- `Ratio::trunc` (src/lib.rs lines 227-231): `from_integer(numer / denom)`
with Rust's truncated division. -/
def ratioTrunc (n d : ℤ) : ℤ × ℤ := ratioFromInteger (n.tdiv d)

/-- `Ratio::fract` (src/lib.rs lines 233-239): `new_raw(numer % denom, denom)`
with Rust's truncated remainder. -/
def ratioFract (n d : ℤ) : ℤ × ℤ := ratioNewRaw (n.tmod d) d

/-- `Add for Ratio<T>` (src/lib.rs arith_impl, lines 892-917):
`Ratio::new(a*d + b*c, b*d)`. -/
def ratioAdd (a : ℤ × ℤ) (b : ℤ × ℤ) : Option (ℤ × ℤ) :=
  ratioNew (a.1 * b.2 + a.2 * b.1) (a.2 * b.2)

/-- `Sub for Ratio<T>` (src/lib.rs arith_impl, lines 892-918):
`Ratio::new(a*d - b*c, b*d)`. -/
def ratioSub (a : ℤ × ℤ) (b : ℤ × ℤ) : Option (ℤ × ℤ) :=
  ratioNew (a.1 * b.2 - a.2 * b.1) (a.2 * b.2)

/-- `Div<Ratio<T>> for Ratio<T>` (src/lib.rs lines 868-878):
`Ratio::new(a.numer * b.denom, a.denom * b.numer)`. -/
def ratioDiv (a : ℤ × ℤ) (b : ℤ × ℤ) : Option (ℤ × ℤ) :=
  ratioNew (a.1 * b.2) (a.2 * b.1)

/-- A pair is in the canonical (reduced) form that `reduce` establishes:
positive denominator and coprime fields. -/
def Canonical (p : ℤ × ℤ) : Prop := 0 < p.2 ∧ Int.gcd p.1 p.2 = 1

instance (p : ℤ × ℤ) : Decidable (Canonical p) := by
  unfold Canonical; infer_instance

/-! ## Floored division facts -/

theorem fmod_neg_bounds (a : ℤ) {b : ℤ} (hb : b < 0) : b < a.fmod b ∧ a.fmod b ≤ 0 := by
  obtain ⟨n, rfl⟩ := Int.eq_negSucc_of_lt_zero hb
  match a with
  | Int.ofNat 0 => exact ⟨hb, le_refl 0⟩
  | Int.ofNat (m+1) =>
    have h1 : Int.fmod (Int.ofNat (m+1)) (Int.negSucc n) = Int.subNatNat (m % (n+1)) n := rfl
    have h2 : m % (n+1) < n+1 := Nat.mod_lt m (by omega)
    rw [h1, Int.subNatNat_eq_coe, Int.negSucc_eq]
    omega
  | Int.negSucc m =>
    have h1 : Int.fmod (Int.negSucc m) (Int.negSucc n) = -Int.ofNat ((m+1) % (n+1)) := rfl
    have h2 : (m+1) % (n+1) < n+1 := Nat.mod_lt (m+1) (by omega)
    rw [h1, Int.negSucc_eq]
    simp only [Int.ofNat_eq_coe]
    omega

theorem natAbs_fmod_lt {b : ℤ} (a : ℤ) (hb : b ≠ 0) : (a.fmod b).natAbs < b.natAbs := by
  rcases lt_or_gt_of_ne hb with h | h
  · have := fmod_neg_bounds a h
    omega
  · have h1 := Int.fmod_nonneg' a h
    have h2 := Int.fmod_lt_of_pos a h
    omega

/-- Decomposition of a represented value through `div_mod_floor`. -/
theorem pv_decomp {d : ℤ} (n : ℤ) (hd : d ≠ 0) :
    pv n d = (Int.fdiv n d : ℚ) + pv (Int.fmod n d) d := by
  have h := Int.fdiv_add_fmod n d
  have hdq : (d : ℚ) ≠ 0 := Int.cast_ne_zero.mpr hd
  have : (n : ℚ) = d * (Int.fdiv n d : ℚ) + (Int.fmod n d : ℚ) := by
    exact_mod_cast congrArg (fun z : ℤ => (z : ℚ)) h.symm
  unfold pv
  rw [this]
  field_simp
  ring

theorem frac_nonneg {d : ℤ} (n : ℤ) (hd : d ≠ 0) : 0 ≤ pv (Int.fmod n d) d := by
  unfold pv
  rcases lt_or_gt_of_ne hd with h | h
  · have hb := fmod_neg_bounds n h
    apply div_nonneg_of_nonpos
    · exact_mod_cast hb.2
    · exact_mod_cast le_of_lt h
  · have h1 := Int.fmod_nonneg' n h
    apply div_nonneg
    · exact_mod_cast h1
    · exact_mod_cast le_of_lt h

theorem frac_lt_one {d : ℤ} (n : ℤ) (hd : d ≠ 0) : pv (Int.fmod n d) d < 1 := by
  unfold pv
  rcases lt_or_gt_of_ne hd with h | h
  · have hb := fmod_neg_bounds n h
    have hdq : (d : ℚ) < 0 := by exact_mod_cast h
    rw [div_lt_one_of_neg hdq]
    exact_mod_cast hb.1
  · have h2 := Int.fmod_lt_of_pos n h
    have hdq : (0 : ℚ) < (d : ℚ) := by exact_mod_cast h
    rw [div_lt_one hdq]
    exact_mod_cast h2

theorem frac_eq_zero_iff {d : ℤ} (n : ℤ) (hd : d ≠ 0) :
    pv (Int.fmod n d) d = 0 ↔ Int.fmod n d = 0 := by
  unfold pv
  rw [div_eq_zero_iff]
  have : (d : ℚ) ≠ 0 := Int.cast_ne_zero.mpr hd
  simp [this, Int.cast_eq_zero]

/-! ## `ratOrd` and `intCmp` facts -/

theorem ratOrd_eq_lt {x y : ℚ} : ratOrd x y = .lt ↔ x < y := by
  by_cases h : x < y <;> unfold ratOrd <;> simp [h] <;> split <;> simp

theorem ratOrd_eq_gt {x y : ℚ} : ratOrd x y = .gt ↔ y < x := by
  unfold ratOrd
  by_cases h : x < y
  · simp [h, asymm h]
  · by_cases h2 : y < x <;> simp [h, h2]

theorem ratOrd_eq_eq {x y : ℚ} : ratOrd x y = .eq ↔ x = y := by
  unfold ratOrd
  rcases lt_trichotomy x y with h | h | h
  · simp [h, ne_of_lt h]
  · simp [h, lt_irrefl]
  · simp [asymm h, h, (ne_of_lt h).symm]

theorem ratOrd_swap (x y : ℚ) : (ratOrd x y).swap = ratOrd y x := by
  rcases lt_trichotomy x y with h | h | h
  · rw [ratOrd_eq_lt.mpr h, show ratOrd y x = .gt from ratOrd_eq_gt.mpr h]
    rfl
  · rw [ratOrd_eq_eq.mpr h, show ratOrd y x = .eq from ratOrd_eq_eq.mpr h.symm]
    rfl
  · rw [ratOrd_eq_gt.mpr h, show ratOrd y x = .lt from ratOrd_eq_lt.mpr h]
    rfl

theorem ratOrd_self (x : ℚ) : ratOrd x x = .eq := ratOrd_eq_eq.mpr rfl

theorem ratOrd_add_left (c x y : ℚ) : ratOrd (c + x) (c + y) = ratOrd x y := by
  unfold ratOrd
  simp [add_lt_add_iff_left]

theorem ratOrd_inv {x y : ℚ} (hx : 0 < x) (hy : 0 < y) :
    ratOrd x⁻¹ y⁻¹ = (ratOrd x y).swap := by
  rcases lt_trichotomy x y with h | h | h
  · rw [ratOrd_eq_lt.mpr h]
    exact ratOrd_eq_gt.mpr ((inv_lt_inv₀ hy hx).mpr h)
  · rw [h, ratOrd_self, ratOrd_self]
    rfl
  · rw [ratOrd_eq_gt.mpr h]
    exact ratOrd_eq_lt.mpr ((inv_lt_inv₀ hx hy).mpr h)

theorem intCmp_eq_lt {a b : ℤ} : intCmp a b = .lt ↔ a < b := by
  by_cases h : a < b <;> unfold intCmp <;> simp [h] <;> split <;> simp

theorem intCmp_eq_gt {a b : ℤ} : intCmp a b = .gt ↔ b < a := by
  unfold intCmp
  by_cases h : a < b
  · simp [h, asymm h]
  · by_cases h2 : b < a <;> simp [h, h2]

theorem intCmp_eq_eq {a b : ℤ} : intCmp a b = .eq ↔ a = b := by
  unfold intCmp
  rcases lt_trichotomy a b with h | h | h
  · simp [h, ne_of_lt h]
  · simp [h, lt_irrefl]
  · simp [asymm h, h, (ne_of_lt h).symm]

theorem intCmp_eq_ratOrd (a b : ℤ) : intCmp a b = ratOrd (a : ℚ) (b : ℚ) := by
  rcases lt_trichotomy a b with h | h | h
  · rw [intCmp_eq_lt.mpr h]
    exact (ratOrd_eq_lt.mpr (by exact_mod_cast h)).symm
  · rw [intCmp_eq_eq.mpr h, h]
    exact (ratOrd_self _).symm
  · rw [intCmp_eq_gt.mpr h]
    exact (ratOrd_eq_gt.mpr (by exact_mod_cast h)).symm

/-- Step 1 of `cmp`: with a shared non-zero denominator, comparing
numerators (reversed when the denominator is negative) matches the value
order. -/
theorem cmp_step1 {d : ℤ} (a b : ℤ) (hd : d ≠ 0) :
    (if d < 0 then (intCmp a b).swap else intCmp a b) = ratOrd (pv a d) (pv b d) := by
  rcases lt_or_gt_of_ne hd with h | h
  · have hdq : (d : ℚ) < 0 := by exact_mod_cast h
    rw [if_pos h, intCmp_eq_ratOrd, ratOrd_swap]
    unfold ratOrd pv
    simp only [div_lt_div_right_of_neg hdq]
  · have hdq : (0 : ℚ) < (d : ℚ) := by exact_mod_cast h
    rw [if_neg (by omega), intCmp_eq_ratOrd]
    unfold ratOrd pv
    simp only [div_lt_div_iff_of_pos_right hdq]

theorem pv_neg_neg (n d : ℤ) : pv n d = pv (-n) (-d) := by
  unfold pv
  push_cast
  rw [neg_div_neg_eq]

theorem intCmp_neg_neg (a b : ℤ) : intCmp (-a) (-b) = (intCmp a b).swap := by
  rcases lt_trichotomy a b with h | h | h
  · rw [intCmp_eq_lt.mpr h, intCmp_eq_gt.mpr (by omega : -b < -a)]
    rfl
  · rw [h, intCmp_eq_eq.mpr rfl, intCmp_eq_eq.mpr rfl]
    rfl
  · rw [intCmp_eq_gt.mpr h, intCmp_eq_lt.mpr (by omega : -a < -b)]
    rfl

/-- Step 2 of `cmp`: with a shared non-zero numerator and denominators of
the same sign, comparing denominators inversely matches the value order.
(Without these two provisos the source's shortcut is wrong; see the
counterexamples for claim C1.) -/
theorem cmp_step2 {n d1 d2 : ℤ} (hn : n ≠ 0) (hd1 : d1 ≠ 0) (hd2 : d2 ≠ 0)
    (hsign : 0 < d1 ↔ 0 < d2) :
    (if n < 0 then intCmp d1 d2 else (intCmp d1 d2).swap) = ratOrd (pv n d1) (pv n d2) := by
  have key : ∀ m e1 e2 : ℤ, m ≠ 0 → 0 < e1 → 0 < e2 →
      (if m < 0 then intCmp e1 e2 else (intCmp e1 e2).swap) =
        ratOrd (pv m e1) (pv m e2) := by
    intro m e1 e2 hm he1 he2
    have he1q : (0:ℚ) < (e1 : ℚ) := by exact_mod_cast he1
    have he2q : (0:ℚ) < (e2 : ℚ) := by exact_mod_cast he2
    have hiff : pv m e1 < pv m e2 ↔ m * e2 < m * e1 := by
      unfold pv
      rw [div_lt_div_iff he1q he2q]
      exact_mod_cast Iff.rfl
    have hiff2 : pv m e2 < pv m e1 ↔ m * e1 < m * e2 := by
      unfold pv
      rw [div_lt_div_iff he2q he1q]
      exact_mod_cast Iff.rfl
    rcases lt_or_gt_of_ne hm with hneg | hpos
    · rw [if_pos hneg]
      rcases lt_trichotomy e1 e2 with h | h | h
      · rw [intCmp_eq_lt.mpr h]
        exact (ratOrd_eq_lt.mpr (hiff.mpr (mul_lt_mul_of_neg_left h hneg))).symm
      · rw [h, intCmp_eq_eq.mpr rfl]
        exact (ratOrd_self _).symm
      · rw [intCmp_eq_gt.mpr h]
        exact (ratOrd_eq_gt.mpr (hiff2.mpr (mul_lt_mul_of_neg_left h hneg))).symm
    · rw [if_neg (by omega)]
      rcases lt_trichotomy e1 e2 with h | h | h
      · rw [intCmp_eq_lt.mpr h]
        exact (ratOrd_eq_gt.mpr (hiff2.mpr (mul_lt_mul_of_pos_left h hpos))).symm
      · rw [h, intCmp_eq_eq.mpr rfl]
        exact (ratOrd_self _).symm
      · rw [intCmp_eq_gt.mpr h]
        exact (ratOrd_eq_lt.mpr (hiff.mpr (mul_lt_mul_of_pos_left h hpos))).symm
  by_cases hpos : 0 < d1
  · exact key n d1 d2 hn hpos (hsign.mp hpos)
  · have h2 : ¬ 0 < d2 := fun h => hpos (hsign.mpr h)
    have hk := key (-n) (-d1) (-d2) (by omega) (by omega) (by omega)
    rw [← pv_neg_neg n d1, ← pv_neg_neg n d2, intCmp_neg_neg] at hk
    rcases lt_or_gt_of_ne hn with hneg | hpos'
    · rw [if_neg (by omega : ¬ -n < 0), Ordering.swap_swap] at hk
      rw [if_pos hneg]
      exact hk
    · rw [if_pos (by omega : -n < 0)] at hk
      rw [if_neg (by omega)]
      exact hk

/-- Correctness of the overflow-free comparison (`Ord for Ratio<T>::cmp`)
with respect to the exact rational values, for any two pairs with non-zero
denominators, outside the one broken configuration of the equal-numerator
shortcut (equal numerators with distinct denominators require the shared
numerator to be non-zero and the denominators to share a sign). -/
theorem ratioCmpF_correct :
    ∀ (fuel : ℕ) (an ad bn bd : ℤ), ad ≠ 0 → bd ≠ 0 → ad.natAbs < fuel →
      (an = bn → ad = bd ∨ (an ≠ 0 ∧ (0 < ad ↔ 0 < bd))) →
      ratioCmpF fuel an ad bn bd = some (ratOrd (pv an ad) (pv bn bd)) := by
  intro fuel
  induction fuel with
  | zero => omega
  | succ fuel ih =>
    intro an ad bn bd had hbd _ hside
    rw [ratioCmpF]
    by_cases hden : ad = bd
    · subst hden
      rw [if_pos rfl]
      rw [cmp_step1 an bn had]
    · rw [if_neg hden]
      by_cases hnum : an = bn
      · rcases hside hnum with h | ⟨hn0, hsg⟩
        · exact absurd h hden
        · subst hnum
          rw [if_pos rfl]
          rw [cmp_step2 hn0 had hbd hsg]
      · rw [if_neg hnum, if_neg (by push_neg; exact ⟨had, hbd⟩)]
        simp only
        have hdecompa := pv_decomp an had
        have hdecompb := pv_decomp bn hbd
        set ai := Int.fdiv an ad with hai
        set ar := Int.fmod an ad with har
        set bi := Int.fdiv bn bd with hbi
        set br := Int.fmod bn bd with hbr
        have hfa0 : 0 ≤ pv ar ad := frac_nonneg an had
        have hfa1 : pv ar ad < 1 := frac_lt_one an had
        have hfb0 : 0 ≤ pv br bd := frac_nonneg bn hbd
        have hfb1 : pv br bd < 1 := frac_lt_one bn hbd
        rcases lt_trichotomy ai bi with hq | hq | hq
        · rw [intCmp_eq_lt.mpr hq]
          have : pv an ad < pv bn bd := by
            rw [hdecompa, hdecompb]
            have hcast : (ai : ℚ) + 1 ≤ (bi : ℚ) := by exact_mod_cast hq
            calc (ai : ℚ) + pv ar ad < ai + 1 := by linarith
              _ ≤ bi := hcast
              _ ≤ bi + pv br bd := by linarith
          rw [ratOrd_eq_lt.mpr this]
        · rw [intCmp_eq_eq.mpr hq]
          by_cases har0 : ar = 0
          · by_cases hbr0 : br = 0
            · rw [if_pos har0, if_pos hbr0]
              have : pv an ad = pv bn bd := by
                rw [hdecompa, hdecompb, har0, hbr0, hq]
                unfold pv
                simp
              rw [ratOrd_eq_eq.mpr this]
            · rw [if_pos har0, if_neg hbr0]
              have hpos : 0 < pv br bd :=
                lt_of_le_of_ne hfb0 (fun h => hbr0 ((frac_eq_zero_iff bn hbd).mp h.symm))
              have : pv an ad < pv bn bd := by
                rw [hdecompa, hdecompb, har0, hq]
                unfold pv
                simp only [Int.cast_zero, zero_div]
                have : pv br bd = (br : ℚ) / (bd : ℚ) := rfl
                linarith [this ▸ hpos]
              rw [ratOrd_eq_lt.mpr this]
          · by_cases hbr0 : br = 0
            · rw [if_neg har0, if_pos hbr0]
              have hpos : 0 < pv ar ad :=
                lt_of_le_of_ne hfa0 (fun h => har0 ((frac_eq_zero_iff an had).mp h.symm))
              have : pv bn bd < pv an ad := by
                rw [hdecompa, hdecompb, hbr0, hq]
                unfold pv
                simp only [Int.cast_zero, zero_div]
                have : pv ar ad = (ar : ℚ) / (ad : ℚ) := rfl
                linarith [this ▸ hpos]
              rw [ratOrd_eq_gt.mpr this]
            · rw [if_neg har0, if_neg hbr0]
              have hfa : 0 < pv ar ad :=
                lt_of_le_of_ne hfa0 (fun h => har0 ((frac_eq_zero_iff an had).mp h.symm))
              have hfb : 0 < pv br bd :=
                lt_of_le_of_ne hfb0 (fun h => hbr0 ((frac_eq_zero_iff bn hbd).mp h.symm))
              have hrec := ih ad ar bd br har0 hbr0
                (by
                  have := natAbs_fmod_lt an had
                  omega)
                (fun h => absurd h hden)
              rw [hrec]
              have hinva : pv ad ar = (pv ar ad)⁻¹ := by
                unfold pv
                rw [← inv_div]
              have hinvb : pv bd br = (pv br bd)⁻¹ := by
                unfold pv
                rw [← inv_div]
              have : (ratOrd (pv ad ar) (pv bd br)).swap = ratOrd (pv an ad) (pv bn bd) := by
                rw [hinva, hinvb, ratOrd_inv hfa hfb, Ordering.swap_swap,
                  hdecompa, hdecompb, hq, ratOrd_add_left]
              simp only [Option.map_some']
              rw [this]
        · rw [intCmp_eq_gt.mpr hq]
          have : pv bn bd < pv an ad := by
            rw [hdecompa, hdecompb]
            have hcast : (bi : ℚ) + 1 ≤ (ai : ℚ) := by exact_mod_cast hq
            calc (bi : ℚ) + pv br bd < bi + 1 := by linarith
              _ ≤ ai := hcast
              _ ≤ ai + pv ar ad := by linarith
          rw [ratOrd_eq_gt.mpr this]

theorem swap_eq_eq_iff (o : Ordering) : o.swap = .eq ↔ o = .eq := by
  cases o <;> simp [Ordering.swap]

/-- The comparison never reports `Equal` for two pairs of distinct value:
even in the broken equal-numerator shortcut, a spurious `Equal` is
impossible. -/
theorem ratioCmpF_eq_val :
    ∀ (fuel : ℕ) (an ad bn bd : ℤ), ad ≠ 0 → bd ≠ 0 →
      ratioCmpF fuel an ad bn bd = some .eq → pv an ad = pv bn bd := by
  intro fuel
  induction fuel with
  | zero => intro an ad bn bd _ _ h; exact absurd h (by simp [ratioCmpF])
  | succ fuel ih =>
    intro an ad bn bd had hbd h
    rw [ratioCmpF] at h
    by_cases hden : ad = bd
    · subst hden
      rw [if_pos rfl] at h
      have : an = bn := by
        rcases ite_eq_iff.mp (Option.some.inj h) with ⟨_, h2⟩ | ⟨_, h2⟩
        · exact intCmp_eq_eq.mp ((swap_eq_eq_iff _).mp h2)
        · exact intCmp_eq_eq.mp h2
      rw [this]
    · rw [if_neg hden] at h
      by_cases hnum : an = bn
      · rw [if_pos hnum] at h
        exfalso
        rcases ite_eq_iff.mp (Option.some.inj h) with ⟨_, h2⟩ | ⟨_, h2⟩
        · exact hden (intCmp_eq_eq.mp h2)
        · exact hden (intCmp_eq_eq.mp ((swap_eq_eq_iff _).mp h2))
      · rw [if_neg hnum, if_neg (by push_neg; exact ⟨had, hbd⟩)] at h
        simp only at h
        set ai := Int.fdiv an ad with hai
        set ar := Int.fmod an ad with har
        set bi := Int.fdiv bn bd with hbi
        set br := Int.fmod bn bd with hbr
        rcases lt_trichotomy ai bi with hq | hq | hq
        · rw [intCmp_eq_lt.mpr hq] at h
          exact absurd (Option.some.inj h) (by simp)
        · rw [intCmp_eq_eq.mpr hq] at h
          by_cases har0 : ar = 0
          · by_cases hbr0 : br = 0
            · rw [pv_decomp an had, pv_decomp bn hbd, ← har, ← hbr, ← hai, ← hbi,
                har0, hbr0, hq]
              unfold pv
              simp
            · rw [if_pos har0, if_neg hbr0] at h
              exact absurd (Option.some.inj h) (by simp)
          · by_cases hbr0 : br = 0
            · rw [if_neg har0, if_pos hbr0] at h
              exact absurd (Option.some.inj h) (by simp)
            · rw [if_neg har0, if_neg hbr0] at h
              obtain ⟨o, ho, hswap⟩ := Option.map_eq_some'.mp h
              have ho' : o = .eq := (swap_eq_eq_iff o).mp hswap
              rw [ho'] at ho
              have hv := ih ad ar bd br har0 hbr0 ho
              have hfa : 0 < pv ar ad :=
                lt_of_le_of_ne (frac_nonneg an had)
                  (fun hz => har0 ((frac_eq_zero_iff an had).mp hz.symm))
              have hfb : 0 < pv br bd :=
                lt_of_le_of_ne (frac_nonneg bn hbd)
                  (fun hz => hbr0 ((frac_eq_zero_iff bn hbd).mp hz.symm))
              have hinv : (pv ar ad)⁻¹ = (pv br bd)⁻¹ := by
                have hinva : pv ad ar = (pv ar ad)⁻¹ := by
                  unfold pv
                  rw [← inv_div]
                have hinvb : pv bd br = (pv br bd)⁻¹ := by
                  unfold pv
                  rw [← inv_div]
                rw [← hinva, ← hinvb, hv]
              have : pv ar ad = pv br bd :=
                inv_injective hinv
              rw [pv_decomp an had, pv_decomp bn hbd, ← har, ← hbr, ← hai, ← hbi, hq, this]
        · rw [intCmp_eq_gt.mpr hq] at h
          exact absurd (Option.some.inj h) (by simp)

/-! ## Claim C1 -/

/-- **C1** (corrected).  For any two pairs with non-zero denominators,
outside the broken configuration of the source's equal-numerator shortcut
(equal numerators with distinct denominators demand a non-zero shared
numerator and denominators of one sign), `Ord::cmp` terminates with
exactly the ordering of the exact rational values.  The embedded
algorithm uses only comparison and `div_mod_floor` on `T` — no
multiplication — so `128/1` versus `1/128` is decided without forming any
product. -/
theorem C1_cmp_matches_value_order (an ad bn bd : ℤ) (had : ad ≠ 0) (hbd : bd ≠ 0)
    (hside : an = bn → ad = bd ∨ (an ≠ 0 ∧ (0 < ad ↔ 0 < bd))) :
    ratioCmp an ad bn bd = some (ratOrd (pv an ad) (pv bn bd)) :=
  ratioCmpF_correct (ad.natAbs + 1) an ad bn bd had hbd (by omega) hside

/-- Witness for C1 at the spec's own example: over an 8-bit unsigned
backing, `cmp(128/1, 1/128)` is `Greater`. -/
theorem C1_witness :
    ratioCmp 128 1 1 128 = some (ratOrd (pv 128 1) (pv 1 128)) ∧
      ratOrd (pv 128 1) (pv 1 128) = .gt :=
  ⟨C1_cmp_matches_value_order 128 1 1 128 (by decide) (by decide) (by decide),
    by norm_num [ratOrd, pv]⟩

/-- Counterexample to C1 as stated: `cmp` misorders value-equal pairs
`0/2` and `0/3` (both denote 0, yet `cmp` says `Greater`), and misorders
`1/1` against the `new_raw` pair `1/(-1)` (values `1 > -1`, yet `cmp`
says `Less`). -/
theorem C1_counterexample :
    (ratioCmp 0 2 0 3 = some .gt ∧ ratOrd (pv 0 2) (pv 0 3) = .eq) ∧
      (ratioCmp 1 1 1 (-1) = some .lt ∧ ratOrd (pv 1 1) (pv 1 (-1)) = .gt) := by
  refine ⟨⟨by decide, ?_⟩, ⟨by decide, ?_⟩⟩
  · simp [ratOrd, pv]
  · norm_num [ratOrd, pv]

/-! ## Claim C2: hashing -/

/-- The sequence of `T` values that `Hash for Ratio<T>` (src/lib.rs lines
441-455) feeds to the hasher: `recurse(numer, denom)` emits the floored
quotient and recurses on `(denom, remainder)` until the denominator is
zero, then emits that zero.  Fuel exhaustion is `none`. -/
def hashSeqF : ℕ → ℤ → ℤ → Option (List ℤ)
  | 0, _, _ => none
  | fuel + 1, n, d =>
    if d = 0 then some [d]
    else (hashSeqF fuel d (Int.fmod n d)).map (fun l => Int.fdiv n d :: l)

/-- The emitted hash sequence, with provably sufficient fuel. -/
def hashSeq (n d : ℤ) : Option (List ℤ) := hashSeqF (d.natAbs + 1) n d

theorem hashSeqF_isSome :
    ∀ (fuel : ℕ) (n d : ℤ), d.natAbs < fuel → (hashSeqF fuel n d).isSome := by
  intro fuel
  induction fuel with
  | zero => omega
  | succ fuel ih =>
    intro n d hlt
    rw [hashSeqF]
    by_cases hd : d = 0
    · simp [hd]
    · rw [if_neg hd, Option.isSome_map']
      exact ih d (Int.fmod n d) (by have := natAbs_fmod_lt n hd; omega)

/-- The emitted hash sequence depends only on the represented rational
value, not on the particular numerator/denominator pair. -/
theorem hashSeqF_val :
    ∀ (f1 f2 : ℕ) (n1 d1 n2 d2 : ℤ), d1 ≠ 0 → d2 ≠ 0 →
      d1.natAbs < f1 → d2.natAbs < f2 → pv n1 d1 = pv n2 d2 →
      hashSeqF f1 n1 d1 = hashSeqF f2 n2 d2 := by
  intro f1
  induction f1 with
  | zero => omega
  | succ f1 ih =>
    intro f2 n1 d1 n2 d2 hd1 hd2 hf1 hf2 hv
    obtain ⟨f2', rfl⟩ : ∃ k, f2 = k + 1 := ⟨f2 - 1, by omega⟩
    have hq : Int.fdiv n1 d1 = Int.fdiv n2 d2 := by
      have h1 := pv_decomp n1 hd1
      have h2 := pv_decomp n2 hd2
      have e : ((Int.fdiv n1 d1 - Int.fdiv n2 d2 : ℤ) : ℚ) =
          pv (Int.fmod n2 d2) d2 - pv (Int.fmod n1 d1) d1 := by
        push_cast
        rw [h1, h2] at hv
        linarith
      have b1 := frac_nonneg n1 hd1
      have b2 := frac_lt_one n1 hd1
      have b3 := frac_nonneg n2 hd2
      have b4 := frac_lt_one n2 hd2
      have : -1 < ((Int.fdiv n1 d1 - Int.fdiv n2 d2 : ℤ) : ℚ) ∧
          ((Int.fdiv n1 d1 - Int.fdiv n2 d2 : ℤ) : ℚ) < 1 := by
        rw [e]
        constructor <;> linarith
      have hlt1 : (-1 : ℤ) < Int.fdiv n1 d1 - Int.fdiv n2 d2 := by
        exact_mod_cast this.1
      have hlt2 : Int.fdiv n1 d1 - Int.fdiv n2 d2 < (1 : ℤ) := by
        exact_mod_cast this.2
      omega
    have hfrac : pv (Int.fmod n1 d1) d1 = pv (Int.fmod n2 d2) d2 := by
      have h1 := pv_decomp n1 hd1
      have h2 := pv_decomp n2 hd2
      rw [h1, h2, hq] at hv
      linarith
    rw [hashSeqF, hashSeqF, if_neg hd1, if_neg hd2]
    by_cases hr1 : Int.fmod n1 d1 = 0
    · have hr2 : Int.fmod n2 d2 = 0 := by
        have : pv (Int.fmod n2 d2) d2 = 0 := by
          rw [← hfrac, hr1]
          unfold pv
          simp
        exact (frac_eq_zero_iff n2 hd2).mp this
      have e1 : hashSeqF f1 d1 (Int.fmod n1 d1) = some [0] := by
        rw [hr1]
        obtain ⟨k, rfl⟩ : ∃ k, f1 = k + 1 := ⟨f1 - 1, by omega⟩
        rw [hashSeqF, if_pos rfl]
      have e2 : hashSeqF f2' d2 (Int.fmod n2 d2) = some [0] := by
        rw [hr2]
        obtain ⟨k, rfl⟩ : ∃ k, f2' = k + 1 := ⟨f2' - 1, by omega⟩
        rw [hashSeqF, if_pos rfl]
      rw [e1, e2, hq]
    · have hr2 : Int.fmod n2 d2 ≠ 0 := by
        intro hz
        apply hr1
        apply (frac_eq_zero_iff n1 hd1).mp
        rw [hfrac, hz]
        unfold pv
        simp
      have hrecv : pv d1 (Int.fmod n1 d1) = pv d2 (Int.fmod n2 d2) := by
        have hinva : pv d1 (Int.fmod n1 d1) = (pv (Int.fmod n1 d1) d1)⁻¹ := by
          unfold pv
          rw [← inv_div]
        have hinvb : pv d2 (Int.fmod n2 d2) = (pv (Int.fmod n2 d2) d2)⁻¹ := by
          unfold pv
          rw [← inv_div]
        rw [hinva, hinvb, hfrac]
      have := ih f2' d1 (Int.fmod n1 d1) d2 (Int.fmod n2 d2) hr1 hr2
        (by have := natAbs_fmod_lt n1 hd1; omega)
        (by have := natAbs_fmod_lt n2 hd2; omega)
        hrecv
      rw [this, hq]

/-- **C2** (confirmed).  If two pairs with non-zero denominators compare
`Equal` under `Ord::cmp`, the `Hash` implementation feeds the identical
sequence of `T` values to the hasher for both, so they hash identically
under every hasher. -/
theorem C2_equal_ratios_hash_identically (an ad bn bd : ℤ)
    (had : ad ≠ 0) (hbd : bd ≠ 0)
    (h : ratioCmp an ad bn bd = some .eq) :
    hashSeq an ad = hashSeq bn bd ∧ (hashSeq an ad).isSome := by
  have hv : pv an ad = pv bn bd := ratioCmpF_eq_val (ad.natAbs + 1) an ad bn bd had hbd h
  refine ⟨?_, hashSeqF_isSome _ an ad (by omega)⟩
  exact hashSeqF_val (ad.natAbs + 1) (bd.natAbs + 1) an ad bn bd had hbd
    (by omega) (by omega) hv

/-- Witness for C2 at the spec's example pair `(4,2)` and `(6,3)`. -/
theorem C2_witness :
    hashSeq 4 2 = hashSeq 6 3 ∧ (hashSeq 4 2).isSome :=
  C2_equal_ratios_hash_identically 4 2 6 3 (by decide) (by decide) (by decide)

/-! ## Claim C3: reduce -/

/-- `reduce` on a pair with non-zero denominator yields a canonical pair
(positive denominator, coprime fields) with the same represented value. -/
theorem reducePair_spec {d : ℤ} (n : ℤ) (hd : d ≠ 0) :
    Canonical (reducePair n d) ∧
      pv (reducePair n d).1 (reducePair n d).2 = pv n d := by
  have hg : 0 < Int.gcd n d := Int.gcd_pos_of_ne_zero_right n hd
  have hcop0 : Int.gcd (n / (Int.gcd n d)) (d / (Int.gcd n d)) = 1 :=
    Int.gcd_div_gcd_div_gcd hg
  have hdvdn : ((Int.gcd n d : ℤ)) ∣ n := Int.gcd_dvd_left
  have hdvdd : ((Int.gcd n d : ℤ)) ∣ d := Int.gcd_dvd_right
  have hn' : n.tdiv (Int.gcd n d) = n / (Int.gcd n d) := Int.tdiv_eq_ediv_of_dvd hdvdn
  have hd' : d.tdiv (Int.gcd n d) = d / (Int.gcd n d) := Int.tdiv_eq_ediv_of_dvd hdvdd
  unfold reducePair
  rw [hn', hd']
  set g : ℤ := (Int.gcd n d : ℤ) with hgdef
  have hgz : g ≠ 0 := by
    rw [hgdef]
    exact_mod_cast Nat.pos_iff_ne_zero.mp hg
  obtain ⟨kn, hkn⟩ := hdvdn
  obtain ⟨kd, hkd⟩ := hdvdd
  have hknq : n / g = kn := by
    rw [hkn, Int.mul_ediv_cancel_left _ hgz]
  have hkdq : d / g = kd := by
    rw [hkd, Int.mul_ediv_cancel_left _ hgz]
  have hkdne : kd ≠ 0 := fun hz => hd (by rw [hkd, hz, mul_zero])
  have hval : pv kn kd = pv n d := by
    rw [hkn, hkd]
    unfold pv
    push_cast
    rw [mul_div_mul_left _ _ (show (g : ℚ) ≠ 0 from Int.cast_ne_zero.mpr hgz)]
  have hcop : Int.gcd kn kd = 1 := by
    rw [← hknq, ← hkdq]
    exact hcop0
  rw [hknq, hkdq]
  by_cases hneg : kd < 0
  · rw [if_pos hneg]
    refine ⟨⟨by simp only; omega, ?_⟩, ?_⟩
    · simp only [zero_sub, Int.neg_gcd, Int.gcd_neg]
      exact hcop
    · simp only [zero_sub]
      rw [← pv_neg_neg]
      exact hval
  · rw [if_neg hneg]
    exact ⟨⟨by simp only; omega, hcop⟩, hval⟩

/-- `reduce` leaves an already-canonical pair unchanged. -/
theorem reducePair_fixed {n d : ℤ} (h : Canonical (n, d)) : reducePair n d = (n, d) := by
  obtain ⟨hpos, hcop⟩ := h
  simp only at hpos hcop
  unfold reducePair
  rw [hcop]
  simp only [Nat.cast_one, Int.tdiv_one]
  rw [if_neg (by omega)]

/-- **C3** (confirmed).  For every pair with non-zero denominator,
`reduce` preserves the represented value, establishes
`gcd(numer, denom) == 1` and `denom > 0`, and is idempotent. -/
theorem C3_reduce_correct (n d : ℤ) (hd : d ≠ 0) :
    pv (reducePair n d).1 (reducePair n d).2 = pv n d ∧
      0 < (reducePair n d).2 ∧
      Int.gcd (reducePair n d).1 (reducePair n d).2 = 1 ∧
      reducePair (reducePair n d).1 (reducePair n d).2 = reducePair n d := by
  obtain ⟨hcanon, hval⟩ := reducePair_spec n hd
  exact ⟨hval, hcanon.1, hcanon.2, reducePair_fixed hcanon⟩

/-- Witness for C3 at the non-reduced, negative-denominator pair `6/(-4)`. -/
theorem C3_witness :
    pv (reducePair 6 (-4)).1 (reducePair 6 (-4)).2 = pv 6 (-4) ∧
      0 < (reducePair 6 (-4)).2 ∧
      Int.gcd (reducePair 6 (-4)).1 (reducePair 6 (-4)).2 = 1 ∧
      reducePair (reducePair 6 (-4)).1 (reducePair 6 (-4)).2 = reducePair 6 (-4) :=
  C3_reduce_correct 6 (-4) (by decide)

/-! ## Claim C10: `new_raw`-built operations preserve canonical form -/

/-- **C10** (confirmed).  Unary negation, `recip`, `from_integer` and the
`Zero`/`One` constants — all built with `new_raw` and never calling
`reduce` — preserve the canonical form `denom > 0 ∧ gcd(numer, denom) = 1`
(with a non-zero numerator required for `recip`). -/
theorem C10_raw_ops_preserve_canonical (p : ℤ × ℤ) (t : ℤ) (h : Canonical p) :
    Canonical (ratioNeg p) ∧
      (p.1 ≠ 0 → ∃ q, ratioRecip p.1 p.2 = some q ∧ Canonical q) ∧
      Canonical (ratioFromInteger t) ∧
      Canonical ratioZero ∧ Canonical ratioOne := by
  obtain ⟨hpos, hcop⟩ := h
  refine ⟨⟨hpos, ?_⟩, ?_, ⟨one_pos, Int.gcd_one⟩, by decide, by decide⟩
  · unfold ratioNeg ratioNewRaw
    simp only [Int.neg_gcd]
    exact hcop
  · intro hn
    unfold ratioRecip ratioNewRaw
    rcases lt_or_gt_of_ne hn with hneg | hp
    · rw [intCmp_eq_lt.mpr hneg]
      refine ⟨_, rfl, ⟨by simp only; omega, ?_⟩⟩
      simp only [zero_sub, Int.neg_gcd, Int.gcd_neg, Int.gcd_comm]
      exact hcop
    · rw [intCmp_eq_gt.mpr hp]
      refine ⟨_, rfl, ⟨hp, ?_⟩⟩
      simp only [Int.gcd_comm]
      exact hcop

/-- Witness for C10 at the canonical pair `3/2`. -/
theorem C10_witness :
    Canonical (ratioNeg (3, 2)) ∧
      ((3 : ℤ) ≠ 0 → ∃ q, ratioRecip 3 2 = some q ∧ Canonical q) ∧
      Canonical (ratioFromInteger 5) ∧
      Canonical ratioZero ∧ Canonical ratioOne :=
  C10_raw_ops_preserve_canonical (3, 2) 5 (by decide)

/-! ## Claim C6: panics of `new`, `recip`, `Div` -/

/-- **C6** (confirmed).  `Ratio::new` panics exactly on a zero
denominator, `recip` panics exactly on a zero numerator, and `Div` of two
nonzero-denominator ratios panics exactly when the divisor is
zero-valued; in all other cases these return normally. -/
theorem C6_panic_conditions (n d a b c e : ℤ) (hb : b ≠ 0) (he : e ≠ 0) :
    ((ratioNew n d).isNone ↔ d = 0) ∧
      ((ratioRecip n d).isNone ↔ n = 0) ∧
      ((ratioDiv (a, b) (c, e)).isNone ↔ c = 0) := by
  refine ⟨?_, ?_, ?_⟩
  · unfold ratioNew
    by_cases hd : d = 0 <;> simp [hd]
  · unfold ratioRecip
    rcases lt_trichotomy n 0 with h | h | h
    · rw [intCmp_eq_lt.mpr h]
      simp [ne_of_lt h]
    · rw [h, intCmp_eq_eq.mpr rfl]
      simp
    · rw [intCmp_eq_gt.mpr h]
      simp [ne_of_gt h]
  · unfold ratioDiv ratioNew
    by_cases hc : c = 0
    · simp [hc]
    · simp [mul_eq_zero, hb, hc]

/-- Witness for C6: division of `1/2` by the zero-valued `0/3` panics,
while `new` and `recip` behave per their conditions at `5/4`. -/
theorem C6_witness :
    ((ratioNew 5 4).isNone ↔ (4 : ℤ) = 0) ∧
      ((ratioRecip 5 4).isNone ↔ (5 : ℤ) = 0) ∧
      ((ratioDiv (1, 2) (0, 3)).isNone ↔ (0 : ℤ) = 0) :=
  C6_panic_conditions 5 4 1 2 0 3 (by decide) (by decide)

/-! ## Claim C5: checked arithmetic over a bounded backing type -/

/-- The capability's overflow-checked multiplication over a bounded
integer type with range `[lo, hi]` (e.g. `[-128, 127]` for `i8`,
`[0, 255]` for `u8`). -/
def checkedMulPrim (lo hi x y : ℤ) : Option ℤ :=
  if lo ≤ x * y ∧ x * y ≤ hi then some (x * y) else none

/-- The capability's overflow-checked addition. -/
def checkedAddPrim (lo hi x y : ℤ) : Option ℤ :=
  if lo ≤ x + y ∧ x + y ≤ hi then some (x + y) else none

/-- The capability's overflow-checked subtraction. -/
def checkedSubPrim (lo hi x y : ℤ) : Option ℤ :=
  if lo ≤ x - y ∧ x - y ≤ hi then some (x - y) else none

/-- `Ratio::reduce` as executed on a *bounded* backing type with range
`[lo, hi]` (two's-complement `[-(hi+1), hi]` for the signed types, `[0, hi]`
for the unsigned ones).  The operations of `reduce` that can overflow a
bounded `T` are range-checked: the gcd (unrepresentable when it exceeds
`hi`, e.g. `gcd(-128, -128)` on `i8`; a zero gcd would divide by zero),
and the two `0 - _` negations of the sign normalization.  `none` models
the source's panic (debug) or wrapped wrong result (release).  The
divisions themselves cannot overflow because the gcd is positive. -/
def reducePairB (lo hi n d : ℤ) : Option (ℤ × ℤ) :=
  if (Int.gcd n d : ℤ) = 0 ∨ (Int.gcd n d : ℤ) > hi then none
  else if d.tdiv (Int.gcd n d) < 0 then
    if lo ≤ 0 - n.tdiv (Int.gcd n d) ∧ 0 - n.tdiv (Int.gcd n d) ≤ hi ∧
        lo ≤ 0 - d.tdiv (Int.gcd n d) ∧ 0 - d.tdiv (Int.gcd n d) ≤ hi then
      some (0 - n.tdiv (Int.gcd n d), 0 - d.tdiv (Int.gcd n d))
    else none
  else some (n.tdiv (Int.gcd n d), d.tdiv (Int.gcd n d))

/-- `Ratio::new` over the bounded backing type: panic on a zero
denominator, then the bounded `reduce`. -/
def ratioNewB (lo hi n d : ℤ) : Option (ℤ × ℤ) :=
  if d = 0 then none else reducePairB lo hi n d

/-- For a positive in-range denominator the bounded `reduce` succeeds and
agrees with the unbounded one: the gcd divides the denominator (so fits),
and the sign-normalizing negation is never taken. -/
theorem reducePairB_pos (lo hi n : ℤ) {d : ℤ} (hd : 0 < d) (hdhi : d ≤ hi) :
    reducePairB lo hi n d = some (reducePair n d) := by
  have hg : 0 < Int.gcd n d := Int.gcd_pos_of_ne_zero_right n (by omega)
  have hgpos : (0:ℤ) < (Int.gcd n d : ℤ) := by exact_mod_cast hg
  have hgz : (Int.gcd n d : ℤ) ≠ 0 := by omega
  have hgd : (Int.gcd n d : ℤ) ∣ d := Int.gcd_dvd_right
  have hgle : (Int.gcd n d : ℤ) ≤ d := Int.le_of_dvd hd hgd
  obtain ⟨k, hk⟩ := hgd
  have hprod : 0 < (Int.gcd n d : ℤ) * k := by
    rw [← hk]
    exact hd
  have hkpos : 0 < k := by
    by_contra hc
    push_neg at hc
    have hnp : (Int.gcd n d : ℤ) * k ≤ 0 :=
      mul_nonpos_of_nonneg_of_nonpos (le_of_lt hgpos) hc
    linarith
  have htd : d.tdiv (Int.gcd n d) = k := by
    nth_rewrite 1 [hk]
    rw [Int.mul_tdiv_cancel_left _ hgz]
  unfold reducePairB reducePair
  rw [if_neg (by push_neg; omega), htd, if_neg (by omega), if_neg (by omega)]

/-- Whenever the bounded `reduce` does return a pair, it is the pair the
unbounded `reduce` computes. -/
theorem reducePairB_some {lo hi n d : ℤ} {p : ℤ × ℤ}
    (h : reducePairB lo hi n d = some p) : p = reducePair n d := by
  unfold reducePairB at h
  unfold reducePair
  by_cases h0 : (Int.gcd n d : ℤ) = 0 ∨ (Int.gcd n d : ℤ) > hi
  · rw [if_pos h0] at h
    exact absurd h (by simp)
  · rw [if_neg h0] at h
    by_cases hneg : d.tdiv (Int.gcd n d) < 0
    · rw [if_pos hneg] at h
      rw [if_pos hneg]
      by_cases hrange : lo ≤ 0 - n.tdiv (Int.gcd n d) ∧ 0 - n.tdiv (Int.gcd n d) ≤ hi ∧
          lo ≤ 0 - d.tdiv (Int.gcd n d) ∧ 0 - d.tdiv (Int.gcd n d) ≤ hi
      · rw [if_pos hrange] at h
        exact (Option.some.inj h).symm
      · rw [if_neg hrange] at h
        exact absurd h (by simp)
    · rw [if_neg hneg] at h
      rw [if_neg hneg]
      exact (Option.some.inj h).symm

theorem ratioNewB_pos (lo hi n : ℤ) {d : ℤ} (hd : 0 < d) (hdhi : d ≤ hi) :
    ratioNewB lo hi n d = some (reducePair n d) := by
  unfold ratioNewB
  rw [if_neg (by omega)]
  exact reducePairB_pos lo hi n hd hdhi

/-- `CheckedMul for Ratio<T>` (src/lib.rs lines 932-944):
`Some(Ratio::new(otry!(a.checked_mul(c)), otry!(b.checked_mul(d))))`,
with `Ratio::new`/`reduce` executed over the bounded type. -/
def ratioCheckedMul (lo hi : ℤ) (a b : ℤ × ℤ) : Option (ℤ × ℤ) :=
  match checkedMulPrim lo hi a.1 b.1 with
  | none => none
  | some ac =>
    match checkedMulPrim lo hi a.2 b.2 with
    | none => none
    | some bd => ratioNewB lo hi ac bd

/-- `CheckedDiv for Ratio<T>` (src/lib.rs lines 946-960): compute
`bc = otry!(b.checked_mul(c))`; `None` if `bc` is zero, otherwise
`Some(Ratio::new(otry!(a.checked_mul(d)), bc))`, with `Ratio::new`
executed over the bounded type. -/
def ratioCheckedDiv (lo hi : ℤ) (a b : ℤ × ℤ) : Option (ℤ × ℤ) :=
  match checkedMulPrim lo hi a.2 b.1 with
  | none => none
  | some bc =>
    if bc = 0 then none
    else
      match checkedMulPrim lo hi a.1 b.2 with
      | none => none
      | some ad => ratioNewB lo hi ad bc

/-- `CheckedAdd for Ratio<T>` (src/lib.rs checked_arith_impl, lines
963-978): `ad`, `bc`, `bd` through checked multiplication, then
`Some(Ratio::new(otry!(ad.checked_add(bc)), bd))`, with `Ratio::new`
executed over the bounded type. -/
def ratioCheckedAdd (lo hi : ℤ) (a b : ℤ × ℤ) : Option (ℤ × ℤ) :=
  match checkedMulPrim lo hi a.1 b.2 with
  | none => none
  | some ad =>
    match checkedMulPrim lo hi a.2 b.1 with
    | none => none
    | some bc =>
      match checkedMulPrim lo hi a.2 b.2 with
      | none => none
      | some bd =>
        match checkedAddPrim lo hi ad bc with
        | none => none
        | some s => ratioNewB lo hi s bd

/-- `CheckedSub for Ratio<T>` (src/lib.rs checked_arith_impl, lines
963-981), with `Ratio::new` executed over the bounded type. -/
def ratioCheckedSub (lo hi : ℤ) (a b : ℤ × ℤ) : Option (ℤ × ℤ) :=
  match checkedMulPrim lo hi a.1 b.2 with
  | none => none
  | some ad =>
    match checkedMulPrim lo hi a.2 b.1 with
    | none => none
    | some bc =>
      match checkedMulPrim lo hi a.2 b.2 with
      | none => none
      | some bd =>
        match checkedSubPrim lo hi ad bc with
        | none => none
        | some s => ratioNewB lo hi s bd

theorem pv_mul {a1 a2 b1 b2 : ℤ} :
    pv (a1 * b1) (a2 * b2) = pv a1 a2 * pv b1 b2 := by
  unfold pv
  push_cast
  rw [div_mul_div_comm]

theorem pv_add {a1 b1 : ℤ} (a2 b2 : ℤ) (ha : a2 ≠ 0) (hb : b2 ≠ 0) :
    pv (a1 * b2 + a2 * b1) (a2 * b2) = pv a1 a2 + pv b1 b2 := by
  unfold pv
  rw [div_add_div _ _ (Int.cast_ne_zero.mpr ha) (Int.cast_ne_zero.mpr hb)]
  push_cast
  ring_nf

theorem pv_sub {a1 b1 : ℤ} (a2 b2 : ℤ) (ha : a2 ≠ 0) (hb : b2 ≠ 0) :
    pv (a1 * b2 - a2 * b1) (a2 * b2) = pv a1 a2 - pv b1 b2 := by
  unfold pv
  rw [div_sub_div _ _ (Int.cast_ne_zero.mpr ha) (Int.cast_ne_zero.mpr hb)]
  push_cast
  ring_nf

theorem pv_quot {a1 b1 b2 : ℤ} (a2 : ℤ) (hb1 : b1 ≠ 0) (hb2 : b2 ≠ 0) :
    pv (a1 * b2) (a2 * b1) = pv a1 a2 / pv b1 b2 := by
  unfold pv
  by_cases ha2 : a2 = 0
  · rw [ha2]
    push_cast
    try simp
  · have hb1q : (b1 : ℚ) ≠ 0 := Int.cast_ne_zero.mpr hb1
    have hb2q : (b2 : ℚ) ≠ 0 := Int.cast_ne_zero.mpr hb2
    have ha2q : (a2 : ℚ) ≠ 0 := Int.cast_ne_zero.mpr ha2
    push_cast
    field_simp

/-- **C5** (corrected).  Over a bounded backing type with range
`[lo, hi]`, for inputs with *positive* denominators each checked operator
returns `none` exactly when one of its intermediate checked
multiplications (for add/sub also the checked addition/subtraction of the
cross products) overflows — `checked_div`, given a divisor with
non-negative numerator, also when the divisor is zero-valued — and
otherwise returns the exact reduced result of the operation; any
successful result is that exact reduced result.  The positivity
restriction is necessary: the final `Ratio::new`'s `reduce` runs on the
bounded type too, and for a `new_raw` input with negative denominator its
sign-normalizing negation can overflow even though every checked
intermediate passed (see the counterexample). -/
theorem C5_checked_ops (lo hi a1 a2 b1 b2 : ℤ) (ha2 : 0 < a2) (hb2 : 0 < b2) :
    ((ratioCheckedMul lo hi (a1, a2) (b1, b2) = none ↔
        ¬(lo ≤ a1 * b1 ∧ a1 * b1 ≤ hi) ∨ ¬(lo ≤ a2 * b2 ∧ a2 * b2 ≤ hi)) ∧
      (ratioCheckedMul lo hi (a1, a2) (b1, b2) = none ∨
        ratioCheckedMul lo hi (a1, a2) (b1, b2) = some (reducePair (a1 * b1) (a2 * b2))) ∧
      Canonical (reducePair (a1 * b1) (a2 * b2)) ∧
      pv (reducePair (a1 * b1) (a2 * b2)).1 (reducePair (a1 * b1) (a2 * b2)).2 =
        pv a1 a2 * pv b1 b2) ∧
    ((0 ≤ b1 →
        (ratioCheckedDiv lo hi (a1, a2) (b1, b2) = none ↔
          ¬(lo ≤ a2 * b1 ∧ a2 * b1 ≤ hi) ∨ b1 = 0 ∨ ¬(lo ≤ a1 * b2 ∧ a1 * b2 ≤ hi))) ∧
      (ratioCheckedDiv lo hi (a1, a2) (b1, b2) = none ∨
        ratioCheckedDiv lo hi (a1, a2) (b1, b2) = some (reducePair (a1 * b2) (a2 * b1))) ∧
      (b1 ≠ 0 →
        Canonical (reducePair (a1 * b2) (a2 * b1)) ∧
        pv (reducePair (a1 * b2) (a2 * b1)).1 (reducePair (a1 * b2) (a2 * b1)).2 =
          pv a1 a2 / pv b1 b2)) ∧
    ((ratioCheckedAdd lo hi (a1, a2) (b1, b2) = none ↔
        ¬(lo ≤ a1 * b2 ∧ a1 * b2 ≤ hi) ∨ ¬(lo ≤ a2 * b1 ∧ a2 * b1 ≤ hi) ∨
          ¬(lo ≤ a2 * b2 ∧ a2 * b2 ≤ hi) ∨
          ¬(lo ≤ a1 * b2 + a2 * b1 ∧ a1 * b2 + a2 * b1 ≤ hi)) ∧
      (ratioCheckedAdd lo hi (a1, a2) (b1, b2) = none ∨
        ratioCheckedAdd lo hi (a1, a2) (b1, b2) =
          some (reducePair (a1 * b2 + a2 * b1) (a2 * b2))) ∧
      Canonical (reducePair (a1 * b2 + a2 * b1) (a2 * b2)) ∧
      pv (reducePair (a1 * b2 + a2 * b1) (a2 * b2)).1
          (reducePair (a1 * b2 + a2 * b1) (a2 * b2)).2 =
        pv a1 a2 + pv b1 b2) ∧
    ((ratioCheckedSub lo hi (a1, a2) (b1, b2) = none ↔
        ¬(lo ≤ a1 * b2 ∧ a1 * b2 ≤ hi) ∨ ¬(lo ≤ a2 * b1 ∧ a2 * b1 ≤ hi) ∨
          ¬(lo ≤ a2 * b2 ∧ a2 * b2 ≤ hi) ∨
          ¬(lo ≤ a1 * b2 - a2 * b1 ∧ a1 * b2 - a2 * b1 ≤ hi)) ∧
      (ratioCheckedSub lo hi (a1, a2) (b1, b2) = none ∨
        ratioCheckedSub lo hi (a1, a2) (b1, b2) =
          some (reducePair (a1 * b2 - a2 * b1) (a2 * b2))) ∧
      Canonical (reducePair (a1 * b2 - a2 * b1) (a2 * b2)) ∧
      pv (reducePair (a1 * b2 - a2 * b1) (a2 * b2)).1
          (reducePair (a1 * b2 - a2 * b1) (a2 * b2)).2 =
        pv a1 a2 - pv b1 b2) := by
  have ha2ne : a2 ≠ 0 := ne_of_gt ha2
  have hb2ne : b2 ≠ 0 := ne_of_gt hb2
  have hbd : a2 * b2 ≠ 0 := mul_ne_zero ha2ne hb2ne
  have hbdpos : 0 < a2 * b2 := mul_pos ha2 hb2
  refine ⟨⟨?_, ?_, ?_, ?_⟩, ⟨?_, ?_, ?_⟩, ⟨?_, ?_, ?_, ?_⟩, ⟨?_, ?_, ?_, ?_⟩⟩
  · unfold ratioCheckedMul checkedMulPrim
    by_cases h1 : lo ≤ a1 * b1 ∧ a1 * b1 ≤ hi <;>
      by_cases h2 : lo ≤ a2 * b2 ∧ a2 * b2 ≤ hi <;>
      first
      | (have hred := ratioNewB_pos lo hi (a1 * b1) hbdpos h2.2
         simp [h1, h2, hred])
      | simp [h1, h2]
  · unfold ratioCheckedMul checkedMulPrim
    by_cases h1 : lo ≤ a1 * b1 ∧ a1 * b1 ≤ hi <;>
      by_cases h2 : lo ≤ a2 * b2 ∧ a2 * b2 ≤ hi <;>
      first
      | (have hred := ratioNewB_pos lo hi (a1 * b1) hbdpos h2.2
         simp [h1, h2, hred])
      | simp [h1, h2]
  · exact (reducePair_spec _ hbd).1
  · exact (reducePair_spec _ hbd).2.trans pv_mul
  · intro hb1ge
    have hzero : (a2 * b1 = 0) ↔ b1 = 0 := by simp [mul_eq_zero, ha2ne]
    unfold ratioCheckedDiv checkedMulPrim
    by_cases h1 : lo ≤ a2 * b1 ∧ a2 * b1 ≤ hi <;>
      by_cases hb1 : b1 = 0 <;>
      by_cases h2 : lo ≤ a1 * b2 ∧ a1 * b2 ≤ hi <;>
      first
      | (have hbcpos : 0 < a2 * b1 := mul_pos ha2 (lt_of_le_of_ne hb1ge (Ne.symm hb1))
         have hred := ratioNewB_pos lo hi (a1 * b2) hbcpos h1.2
         simp [h1, h2, hb1, hzero, hred])
      | (simp [h1, h2, hb1, hzero] <;>
         rcases em (lo ≤ (0:ℤ) ∧ (0:ℤ) ≤ hi) with hc | hc <;> simp [hc])
  · by_cases hz : a2 * b1 = 0
    · unfold ratioCheckedDiv checkedMulPrim
      simp [hz] <;>
        rcases em (lo ≤ (0:ℤ) ∧ (0:ℤ) ≤ hi) with hc | hc <;> simp [hc]
    · unfold ratioCheckedDiv checkedMulPrim
      by_cases h1 : lo ≤ a2 * b1 ∧ a2 * b1 ≤ hi
      · by_cases h2 : lo ≤ a1 * b2 ∧ a1 * b2 ≤ hi
        · simp [h1, h2, hz]
          unfold ratioNewB
          rw [if_neg hz]
          rcases hX : reducePairB lo hi (a1 * b2) (a2 * b1) with _ | p
          · exact Or.inl rfl
          · exact Or.inr (by rw [reducePairB_some hX])
        · simp [h1, h2, hz]
      · simp [h1]
  · intro hb1
    have hbc : a2 * b1 ≠ 0 := mul_ne_zero ha2ne hb1
    exact ⟨(reducePair_spec _ hbc).1, (reducePair_spec _ hbc).2.trans (pv_quot a2 hb1 hb2ne)⟩
  · unfold ratioCheckedAdd checkedMulPrim checkedAddPrim
    by_cases h1 : lo ≤ a1 * b2 ∧ a1 * b2 ≤ hi <;>
      by_cases h2 : lo ≤ a2 * b1 ∧ a2 * b1 ≤ hi <;>
      by_cases h3 : lo ≤ a2 * b2 ∧ a2 * b2 ≤ hi <;>
      by_cases h4 : lo ≤ a1 * b2 + a2 * b1 ∧ a1 * b2 + a2 * b1 ≤ hi <;>
      first
      | (have hred := ratioNewB_pos lo hi (a1 * b2 + a2 * b1) hbdpos h3.2
         simp [h1, h2, h3, h4, hred])
      | simp [h1, h2, h3, h4]
  · unfold ratioCheckedAdd checkedMulPrim checkedAddPrim
    by_cases h1 : lo ≤ a1 * b2 ∧ a1 * b2 ≤ hi <;>
      by_cases h2 : lo ≤ a2 * b1 ∧ a2 * b1 ≤ hi <;>
      by_cases h3 : lo ≤ a2 * b2 ∧ a2 * b2 ≤ hi <;>
      by_cases h4 : lo ≤ a1 * b2 + a2 * b1 ∧ a1 * b2 + a2 * b1 ≤ hi <;>
      first
      | (have hred := ratioNewB_pos lo hi (a1 * b2 + a2 * b1) hbdpos h3.2
         simp [h1, h2, h3, h4, hred])
      | simp [h1, h2, h3, h4]
  · exact (reducePair_spec _ hbd).1
  · exact (reducePair_spec _ hbd).2.trans (pv_add a2 b2 ha2ne hb2ne)
  · unfold ratioCheckedSub checkedMulPrim checkedSubPrim
    by_cases h1 : lo ≤ a1 * b2 ∧ a1 * b2 ≤ hi <;>
      by_cases h2 : lo ≤ a2 * b1 ∧ a2 * b1 ≤ hi <;>
      by_cases h3 : lo ≤ a2 * b2 ∧ a2 * b2 ≤ hi <;>
      by_cases h4 : lo ≤ a1 * b2 - a2 * b1 ∧ a1 * b2 - a2 * b1 ≤ hi <;>
      first
      | (have hred := ratioNewB_pos lo hi (a1 * b2 - a2 * b1) hbdpos h3.2
         simp [h1, h2, h3, h4, hred, -sub_le_iff_le_add, -tsub_le_iff_right])
      | simp [h1, h2, h3, h4, -sub_le_iff_le_add, -tsub_le_iff_right]
  · unfold ratioCheckedSub checkedMulPrim checkedSubPrim
    by_cases h1 : lo ≤ a1 * b2 ∧ a1 * b2 ≤ hi <;>
      by_cases h2 : lo ≤ a2 * b1 ∧ a2 * b1 ≤ hi <;>
      by_cases h3 : lo ≤ a2 * b2 ∧ a2 * b2 ≤ hi <;>
      by_cases h4 : lo ≤ a1 * b2 - a2 * b1 ∧ a1 * b2 - a2 * b1 ≤ hi <;>
      first
      | (have hred := ratioNewB_pos lo hi (a1 * b2 - a2 * b1) hbdpos h3.2
         simp [h1, h2, h3, h4, hred, -sub_le_iff_le_add, -tsub_le_iff_right])
      | simp [h1, h2, h3, h4, -sub_le_iff_le_add, -tsub_le_iff_right]
  · exact (reducePair_spec _ hbd).1
  · exact (reducePair_spec _ hbd).2.trans (pv_sub a2 b2 ha2ne hb2ne)

/-- Counterexample to C5 as stated: over the `i8` range `[-128, 127]`,
`checked_add(new_raw(1, -128), 0/1)` passes every checked intermediate
(`ad = 1`, `bc = 0`, `bd = -128`, `ad + bc = 1`, all in range), yet the
final `Ratio::new`'s `reduce` must negate the denominator, and
`0 - (-128)` does not fit `i8`: the source panics (debug) or wraps
(release) instead of returning `None` or a correct `Some`. -/
theorem C5_counterexample :
    ratioCheckedAdd (-128) 127 (1, -128) (0, 1) = none ∧
      (-128 ≤ (1:ℤ) * 1 ∧ (1:ℤ) * 1 ≤ 127) ∧
      (-128 ≤ (-128:ℤ) * 0 ∧ (-128:ℤ) * 0 ≤ 127) ∧
      (-128 ≤ (-128:ℤ) * 1 ∧ (-128:ℤ) * 1 ≤ 127) ∧
      (-128 ≤ (1:ℤ) * 1 + (-128) * 0 ∧ (1:ℤ) * 1 + (-128) * 0 ≤ 127) := by
  decide

/-- Witness for C5 at the spec's example: `checked_mul` of `128/1` with
itself over the 8-bit unsigned range `[0, 255]` returns `none`. -/
theorem C5_witness :
    ratioCheckedMul 0 255 (128, 1) (128, 1) = none := by
  have h := (C5_checked_ops 0 255 128 1 128 1 (by decide) (by decide)).1.1
  exact h.mpr (by decide)

/-! ## Truncated division facts and claim C7 -/

theorem neg_tmod (a b : ℤ) : (-a).tmod b = -(a.tmod b) := by
  rw [Int.tmod_def, Int.tmod_def, Int.neg_tdiv]
  ring

theorem tmod_bounds {d : ℤ} (n : ℤ) (hd : 0 < d) :
    -d < n.tmod d ∧ n.tmod d < d ∧ (0 ≤ n → 0 ≤ n.tmod d) ∧ (n ≤ 0 → n.tmod d ≤ 0) := by
  rcases le_or_lt 0 n with hn | hn
  · have h1 := Int.tmod_nonneg d hn
    have h2 := Int.tmod_lt_of_pos n hd
    refine ⟨by omega, h2, fun _ => h1, fun h => ?_⟩
    have hn0 : n = 0 := le_antisymm h hn
    simp [hn0]
  · have h1 := Int.tmod_nonneg d (by omega : (0:ℤ) ≤ -n)
    have h2 := Int.tmod_lt_of_pos (-n) hd
    rw [neg_tmod] at h1 h2
    exact ⟨by omega, by omega, fun h => by omega, fun _ => by omega⟩

/-- If `reduce` keeps a non-zero numerator unchanged, it also keeps the
denominator unchanged. -/
theorem reducePair_numer_fixed {n d : ℤ} (hd : d ≠ 0) (hn : n ≠ 0)
    (h : (reducePair n d).1 = n) : (reducePair n d).2 = d := by
  obtain ⟨⟨hpos, _⟩, hval⟩ := reducePair_spec n hd
  rw [h] at hval
  unfold pv at hval
  have hnq : (n : ℚ) ≠ 0 := Int.cast_ne_zero.mpr hn
  have hd2q : ((reducePair n d).2 : ℚ) ≠ 0 :=
    Int.cast_ne_zero.mpr (by omega)
  have hdq : (d : ℚ) ≠ 0 := Int.cast_ne_zero.mpr hd
  have hmul : (n : ℚ) * (d : ℚ) = (n : ℚ) * ((reducePair n d).2 : ℚ) :=
    (div_eq_div_iff hd2q hdq).mp hval
  have : (d : ℚ) = ((reducePair n d).2 : ℚ) := mul_left_cancel₀ hnq hmul
  exact_mod_cast this.symm

/-- **C7** (corrected).  For every ratio with non-zero denominator whose
numerator is non-zero or whose denominator is one, `trunc + fract`
produces the reduced pair of the original value, and that sum compares
`Equal` to the original under the `Ratio` value equality. -/
theorem C7_trunc_add_fract (n d : ℤ) (hd : d ≠ 0) (hok : n ≠ 0 ∨ d = 1) :
    ratioAdd (ratioTrunc n d) (ratioFract n d) = some (reducePair n d) ∧
      ratioCmp (reducePair n d).1 (reducePair n d).2 n d = some .eq := by
  obtain ⟨⟨hpos, hcop⟩, hval⟩ := reducePair_spec n hd
  constructor
  · unfold ratioAdd ratioTrunc ratioFract ratioFromInteger ratioNewRaw ratioNew
    simp only
    rw [if_neg (by simpa using hd)]
    have heq : n.tdiv d * d + 1 * n.tmod d = n := by
      have := Int.tdiv_add_tmod n d
      linarith
    rw [show (1 : ℤ) * d = d by ring, heq]
  · have hside : (reducePair n d).1 = n →
        (reducePair n d).2 = d ∨ ((reducePair n d).1 ≠ 0 ∧
          (0 < (reducePair n d).2 ↔ 0 < d)) := by
      intro h
      rcases hok with hn | h1
      · exact Or.inl (reducePair_numer_fixed hd hn h)
      · subst h1
        exact Or.inl (by rw [reducePair_fixed ⟨one_pos, Int.gcd_one⟩])
    have := ratioCmpF_correct ((reducePair n d).2.natAbs + 1)
      (reducePair n d).1 (reducePair n d).2 n d (by omega) hd (by omega) hside
    rw [ratioCmp, this, hval, ratOrd_self]

/-- Witness for C7 at `7/2`. -/
theorem C7_witness :
    ratioAdd (ratioTrunc 7 2) (ratioFract 7 2) = some (reducePair 7 2) ∧
      ratioCmp (reducePair 7 2).1 (reducePair 7 2).2 7 2 = some .eq :=
  C7_trunc_add_fract 7 2 (by decide) (Or.inl (by decide))

/-- Counterexample to C7 as stated: for the `new_raw` pair `0/2`,
`trunc + fract` is the pair `0/1`, and `cmp(0/1, 0/2)` is `Greater`, not
`Equal` — so `a.trunc() + a.fract() == a` fails under the `Ratio`
equality. -/
theorem C7_counterexample :
    ratioAdd (ratioTrunc 0 2) (ratioFract 0 2) = some (0, 1) ∧
      ratioCmp 0 1 0 2 = some .gt ∧ ratioCmp 0 1 0 2 ≠ some .eq := by
  refine ⟨by decide, by decide, by decide⟩

/-! ## Claim C4: round -/

/-- Rust `PartialOrd::lt` on `Ratio`: `cmp == Less`. -/
def ratioLt (p q : ℤ × ℤ) : Option Bool :=
  (ratioCmp p.1 p.2 q.1 q.2).map (fun o => o = Ordering.lt)

/-- Rust `PartialOrd::ge` on `Ratio`: `cmp != Less`. -/
def ratioGe (p q : ℤ × ℤ) : Option Bool :=
  (ratioCmp p.1 p.2 q.1 q.2).map (fun o => o ≠ Ordering.lt)

/-- `Ratio::round` (src/lib.rs lines 193-225): take the fractional part,
negate it through `zero - fractional` if it is negative, test
`numer >= denom/2` (`denom/2 + 1` for an odd denominator), and round the
truncation away from zero when the test holds.  All the `Ratio`
comparisons and arithmetic inside are the crate's own (panics propagate
as `none`). -/
def roundR (n d : ℤ) : Option (ℤ × ℤ) := do
  let f := ratioFract n d
  let isNeg ← ratioLt f ratioZero
  let f2 ← if isNeg then ratioSub ratioZero f else pure f
  if (if f2.2.tmod 2 = 0 then f2.1 ≥ f2.2.tdiv 2 else f2.1 ≥ f2.2.tdiv 2 + 1) then do
    let ge0 ← ratioGe (ratioNewRaw n d) ratioZero
    if ge0 then ratioAdd (ratioTrunc n d) ratioOne
    else ratioSub (ratioTrunc n d) ratioOne
  else
    pure (ratioTrunc n d)

/-- Rounding to the nearest integer with ties away from zero, stated
directly on the exact rational value. -/
def nearestAway (q : ℚ) : ℤ :=
  if 0 ≤ q then ⌊q + 1/2⌋ else -⌊-q + 1/2⌋

theorem cmp_vs_zero {x y : ℤ} (hy : y ≠ 0) (hx : x ≠ 0) :
    ratioCmp x y 0 1 = some (ratOrd (pv x y) 0) := by
  have h := ratioCmpF_correct (y.natAbs + 1) x y 0 1 hy one_ne_zero (by omega)
    (fun h => absurd h hx)
  rw [ratioCmp, h]
  have : pv 0 1 = 0 := by
    unfold pv
    simp
  rw [this]

/-- The source's `a >= b/2` (`+1` when `b` is odd) test decides `2a >= b`
exactly, for a positive `b`. -/
theorem half_test_iff {a b : ℤ} (hb : 0 < b) :
    (if b.tmod 2 = 0 then a ≥ b.tdiv 2 else a ≥ b.tdiv 2 + 1) ↔ 2 * a ≥ b := by
  have heq := Int.tdiv_add_tmod b 2
  have h0 : 0 ≤ b.tmod 2 := Int.tmod_nonneg 2 (le_of_lt hb)
  have h2 : b.tmod 2 < 2 := Int.tmod_lt_of_pos b (by omega)
  by_cases he : b.tmod 2 = 0 <;> simp only [he, if_true, if_false] <;> omega

theorem half_value_iff {a b : ℤ} (hb : 0 < b) :
    2 * a ≥ b ↔ (1 : ℚ)/2 ≤ pv a b := by
  have hbq : (0:ℚ) < (b : ℚ) := by exact_mod_cast hb
  unfold pv
  rw [div_le_div_iff (by norm_num) hbq]
  constructor
  · intro h
    have : (b : ℚ) ≤ 2 * (a : ℚ) := by exact_mod_cast h
    linarith
  · intro h
    have : (b : ℤ) ≤ 2 * a := by exact_mod_cast (by linarith : (b : ℚ) ≤ 2 * (a : ℚ))
    omega

theorem floor_frac_half {r d : ℤ} (hd : 0 < d) (h1 : 0 < r) (h2 : r < d) :
    ⌊(r : ℚ)/(d : ℚ) + 1/2⌋ = if 2 * r ≥ d then 1 else 0 := by
  have hdq : (0:ℚ) < (d : ℚ) := by exact_mod_cast hd
  have hfpos : (0:ℚ) < (r : ℚ)/(d : ℚ) := div_pos (by exact_mod_cast h1) hdq
  have hflt : (r : ℚ)/(d : ℚ) < 1 := (div_lt_one hdq).mpr (by exact_mod_cast h2)
  by_cases h : 2 * r ≥ d
  · rw [if_pos h]
    apply Int.floor_eq_iff.mpr
    have hge : (1 : ℚ)/2 ≤ (r : ℚ)/(d : ℚ) := by
      have := (half_value_iff hd).mp h
      unfold pv at this
      exact this
    constructor
    · push_cast
      linarith
    · push_cast
      linarith
  · rw [if_neg h]
    apply Int.floor_eq_iff.mpr
    have hlt : (r : ℚ)/(d : ℚ) < 1/2 := by
      by_contra hc
      push_neg at hc
      exact h ((half_value_iff hd).mpr (by unfold pv; exact hc))
    constructor
    · push_cast
      linarith
    · push_cast
      linarith

/-- Truncated-division decomposition of the value. -/
theorem pv_decomp_tdiv {d : ℤ} (n : ℤ) (hd : d ≠ 0) :
    pv n d = (n.tdiv d : ℚ) + pv (n.tmod d) d := by
  have h := Int.tdiv_add_tmod n d
  have hdq : (d : ℚ) ≠ 0 := Int.cast_ne_zero.mpr hd
  have : (n : ℚ) = d * (n.tdiv d : ℚ) + (n.tmod d : ℚ) := by
    exact_mod_cast congrArg (fun z : ℤ => (z : ℚ)) h.symm
  unfold pv
  rw [this]
  field_simp
  ring

theorem reducePair_zero {d : ℤ} (hd : d ≠ 0) : reducePair 0 d = (0, 1) := by
  obtain ⟨⟨hpos, hcop⟩, hval⟩ := reducePair_spec 0 hd
  have h0 : pv 0 d = 0 := by
    unfold pv
    simp
  rw [h0] at hval
  have hp2 : ((reducePair 0 d).2 : ℚ) ≠ 0 := Int.cast_ne_zero.mpr (by omega)
  have hn0 : (reducePair 0 d).1 = 0 := by
    unfold pv at hval
    rcases div_eq_zero_iff.mp hval with h | h
    · exact_mod_cast h
    · exact absurd h hp2
  have hd1 : (reducePair 0 d).2 = 1 := by
    have := hcop
    rw [hn0] at this
    simp [Int.gcd] at this
    omega
  rw [Prod.ext_iff]
  exact ⟨hn0, hd1⟩

theorem nearestAway_int (t : ℤ) : nearestAway (t : ℚ) = t := by
  unfold nearestAway
  by_cases h : (0:ℚ) ≤ (t : ℚ)
  · rw [if_pos h]
    have : ⌊(t : ℚ) + 1/2⌋ = t + ⌊(1 : ℚ)/2⌋ := Int.floor_int_add t (1/2)
    rw [this, show ⌊(1 : ℚ)/2⌋ = 0 from by norm_num]
    ring
  · rw [if_neg h]
    have : -(t : ℚ) + 1/2 = ((-t : ℤ) : ℚ) + 1/2 := by push_cast; ring
    rw [this, Int.floor_int_add (-t) (1/2), show ⌊(1 : ℚ)/2⌋ = 0 from by norm_num]
    ring

/-- **C4** (corrected).  For every ratio with a positive denominator,
`round` is the integer ratio `m/1` nearest to the value, with half-way
ties away from zero; the comparison against `denom/2` (`+1` when odd)
decides the tie condition exactly.  (For `new_raw` pairs with negative
denominator `round` can err; see the counterexample.) -/
theorem C4_round_nearest_ties_away (n d : ℤ) (hd : 0 < d) :
    roundR n d = some (nearestAway (pv n d), 1) := by
  have hd0 : d ≠ 0 := by omega
  have hdq : (0:ℚ) < (d:ℚ) := by exact_mod_cast hd
  have hb := tmod_bounds n hd
  have hdec := pv_decomp_tdiv n hd0
  have htr : ratioTrunc n d = (n.tdiv d, 1) := rfl
  unfold roundR ratioFract ratioNewRaw
  by_cases hr : n.tmod d = 0
  · have hv : pv n d = (n.tdiv d : ℚ) := by
      rw [hdec, hr]
      unfold pv
      simp
    by_cases hd1 : d = 1
    · subst hd1
      have hlt : ratioLt (0, 1) ratioZero = some false := by decide
      have hh1 : ¬ (if (1:ℤ).tmod 2 = 0 then (0:ℤ) ≥ (1:ℤ).tdiv 2
          else (0:ℤ) ≥ (1:ℤ).tdiv 2 + 1) := by decide
      simp only [hr]
      rw [hlt]
      simp [hh1]
      rw [htr, hv, nearestAway_int]
    · have hdgt : 1 < d := by omega
      have hcmp : ratioCmp 0 d 0 1 = some .lt := by
        unfold ratioCmp
        rw [ratioCmpF]
        rw [if_neg hd1, if_pos rfl, if_neg (by omega : ¬ (0:ℤ) < 0),
          intCmp_eq_gt.mpr hdgt]
        rfl
      have hlt : ratioLt (0, d) ratioZero = some true := by
        unfold ratioLt ratioZero ratioNewRaw
        rw [show ((0,d) : ℤ × ℤ).1 = 0 from rfl]
        simp [hcmp]
      have hsub : ratioSub ratioZero (0, d) = some (0, 1) := by
        unfold ratioSub ratioZero ratioNewRaw ratioNew
        simp only
        rw [if_neg (by simpa using hd0)]
        rw [show (0:ℤ) * d - 1 * 0 = 0 by ring, show (1:ℤ) * d = d by ring]
        rw [reducePair_zero hd0]
      have hh1 : ¬ (if (1:ℤ).tmod 2 = 0 then (0:ℤ) ≥ (1:ℤ).tdiv 2
          else (0:ℤ) ≥ (1:ℤ).tdiv 2 + 1) := by decide
      simp only [hr]
      rw [hlt]
      simp [hsub, hh1]
      rw [htr, hv, nearestAway_int]
  · rcases lt_or_gt_of_ne hr with hrneg | hrpos
    · -- negative remainder: the numerator is negative
      have hn : n < 0 := by
        by_contra hc
        push_neg at hc
        have := hb.2.2.1 hc
        omega
      have hvneg : pv n d < 0 := by
        unfold pv
        apply div_neg_of_neg_of_pos _ hdq
        exact_mod_cast hn
      have hlt : ratioLt (n.tmod d, d) ratioZero = some true := by
        unfold ratioLt ratioZero ratioNewRaw
        rw [show ((n.tmod d, d) : ℤ × ℤ).1 = n.tmod d from rfl,
          show ((n.tmod d, d) : ℤ × ℤ).2 = d from rfl,
          show ((0,1) : ℤ × ℤ).1 = 0 from rfl, show ((0,1) : ℤ × ℤ).2 = 1 from rfl,
          cmp_vs_zero hd0 hr]
        have hfneg : pv (n.tmod d) d < 0 := by
          unfold pv
          apply div_neg_of_neg_of_pos _ hdq
          exact_mod_cast hrneg
        rw [ratOrd_eq_lt.mpr hfneg]
        simp
      have hsub : ratioSub ratioZero (n.tmod d, d) =
          some (reducePair (-(n.tmod d)) d) := by
        unfold ratioSub ratioZero ratioNewRaw ratioNew
        simp only
        rw [if_neg (by simpa using hd0)]
        rw [show (0:ℤ) * d - 1 * n.tmod d = -(n.tmod d) by ring,
          show (1:ℤ) * d = d by ring]
      obtain ⟨⟨hp2, hpc⟩, hpv⟩ := reducePair_spec (-(n.tmod d)) hd0
      have hhalf : ((if (reducePair (-(n.tmod d)) d).2.tmod 2 = 0 then
            (reducePair (-(n.tmod d)) d).1 ≥ (reducePair (-(n.tmod d)) d).2.tdiv 2
          else
            (reducePair (-(n.tmod d)) d).1 ≥
              (reducePair (-(n.tmod d)) d).2.tdiv 2 + 1)) ↔
          2 * (-(n.tmod d)) ≥ d := by
        rw [half_test_iff hp2, half_value_iff hp2, hpv, ← half_value_iff hd]
      have hge : ratioGe (n, d) ratioZero = some false := by
        unfold ratioGe ratioZero ratioNewRaw
        rw [show ((n, d) : ℤ × ℤ).1 = n from rfl, show ((n, d) : ℤ × ℤ).2 = d from rfl,
          show ((0,1) : ℤ × ℤ).1 = 0 from rfl, show ((0,1) : ℤ × ℤ).2 = 1 from rfl,
          cmp_vs_zero hd0 (by omega : n ≠ 0), ratOrd_eq_lt.mpr hvneg]
        simp
      have haway : nearestAway (pv n d) =
          n.tdiv d - (if 2 * (-(n.tmod d)) ≥ d then 1 else 0) := by
        unfold nearestAway
        rw [if_neg (by push_neg; exact hvneg)]
        have hsplit : -pv n d + 1/2 =
            ((-(n.tdiv d) : ℤ) : ℚ) + (((-(n.tmod d)) : ℤ) : ℚ)/(d : ℚ) + 1/2 := by
          rw [hdec]
          unfold pv
          push_cast
          ring
        rw [hsplit, add_assoc, Int.floor_int_add,
          floor_frac_half hd (by omega) (by omega)]
        split <;> push_cast <;> ring
      simp only [hlt]
      by_cases hh : 2 * (-(n.tmod d)) ≥ d
      · have hcond := hhalf.mpr hh
        have hfin : ratioSub (ratioTrunc n d) ratioOne = some (n.tdiv d - 1, 1) := by
          rw [htr]
          unfold ratioSub ratioOne ratioNewRaw ratioNew
          simp only
          rw [if_neg (by norm_num)]
          rw [show n.tdiv d * 1 - 1 * 1 = n.tdiv d - 1 by ring,
            show (1:ℤ) * 1 = 1 by ring]
          rw [reducePair_fixed ⟨one_pos, Int.gcd_one⟩]
        simp [hsub, hcond, hge, hfin]
        rw [haway, if_pos hh]
        try norm_num
      · have hcond : ¬ _ := fun hc => hh (hhalf.mp hc)
        simp [hsub, hcond]
        rw [htr, haway, if_neg hh]
        try norm_num
    · -- positive remainder: the numerator is positive
      have hn : 0 < n := by
        by_contra hc
        push_neg at hc
        have := hb.2.2.2 hc
        omega
      have hvpos : 0 < pv n d := by
        unfold pv
        apply div_pos _ hdq
        exact_mod_cast hn
      have hlt : ratioLt (n.tmod d, d) ratioZero = some false := by
        unfold ratioLt ratioZero ratioNewRaw
        rw [show ((n.tmod d, d) : ℤ × ℤ).1 = n.tmod d from rfl,
          show ((n.tmod d, d) : ℤ × ℤ).2 = d from rfl,
          show ((0,1) : ℤ × ℤ).1 = 0 from rfl, show ((0,1) : ℤ × ℤ).2 = 1 from rfl,
          cmp_vs_zero hd0 hr]
        have hfpos : 0 < pv (n.tmod d) d := by
          unfold pv
          apply div_pos _ hdq
          exact_mod_cast hrpos
        rw [ratOrd_eq_gt.mpr hfpos]
        simp
      have hhalf : ((if ((n.tmod d, d) : ℤ × ℤ).2.tmod 2 = 0 then
            ((n.tmod d, d) : ℤ × ℤ).1 ≥ ((n.tmod d, d) : ℤ × ℤ).2.tdiv 2
          else
            ((n.tmod d, d) : ℤ × ℤ).1 ≥ ((n.tmod d, d) : ℤ × ℤ).2.tdiv 2 + 1)) ↔
          2 * n.tmod d ≥ d :=
        half_test_iff hd
      have hge : ratioGe (n, d) ratioZero = some true := by
        unfold ratioGe ratioZero ratioNewRaw
        rw [show ((n, d) : ℤ × ℤ).1 = n from rfl, show ((n, d) : ℤ × ℤ).2 = d from rfl,
          show ((0,1) : ℤ × ℤ).1 = 0 from rfl, show ((0,1) : ℤ × ℤ).2 = 1 from rfl,
          cmp_vs_zero hd0 (by omega : n ≠ 0), ratOrd_eq_gt.mpr hvpos]
        simp
      have haway : nearestAway (pv n d) =
          n.tdiv d + (if 2 * n.tmod d ≥ d then 1 else 0) := by
        unfold nearestAway
        rw [if_pos (le_of_lt hvpos)]
        have hsplit : pv n d + 1/2 =
            ((n.tdiv d : ℤ) : ℚ) + ((n.tmod d : ℤ) : ℚ)/(d : ℚ) + 1/2 := by
          rw [hdec]
          unfold pv
          push_cast
          ring
        rw [hsplit, add_assoc, Int.floor_int_add,
          floor_frac_half hd (by omega) (by omega)]
      simp only [hlt]
      by_cases hh : 2 * n.tmod d ≥ d
      · have hcond := hhalf.mpr hh
        have hfin : ratioAdd (ratioTrunc n d) ratioOne = some (n.tdiv d + 1, 1) := by
          rw [htr]
          unfold ratioAdd ratioOne ratioNewRaw ratioNew
          simp only
          rw [if_neg (by norm_num)]
          rw [show n.tdiv d * 1 + 1 * 1 = n.tdiv d + 1 by ring,
            show (1:ℤ) * 1 = 1 by ring]
          rw [reducePair_fixed ⟨one_pos, Int.gcd_one⟩]
        simp [hcond, hge, hfin]
        rw [haway, if_pos hh]
        try norm_num
      · have hcond : ¬ _ := fun hc => hh (hhalf.mp hc)
        simp [hcond]
        rw [htr, haway, if_neg hh]
        try norm_num

/-- Witness for C4 at `7/2 = 3.5`, which rounds away from zero to `4`. -/
theorem C4_witness :
    roundR 7 2 = some (nearestAway (pv 7 2), 1) ∧ nearestAway (pv 7 2) = 4 := by
  refine ⟨C4_round_nearest_ties_away 7 2 (by decide), ?_⟩
  have : pv 7 2 = 7/2 := rfl
  rw [this]
  unfold nearestAway
  norm_num

/-- Counterexample to C4 as stated: the `new_raw` pair `(-2, -2)` has value
`1`, whose nearest integer is `1`, but `round` returns `2`. -/
theorem C4_counterexample :
    roundR (-2) (-2) = some (2, 1) ∧ nearestAway (pv (-2) (-2)) = 1 := by
  constructor
  · decide
  · have : pv (-2) (-2) = 1 := by
      unfold pv
      norm_num
    rw [this, show ((1:ℚ)) = ((1:ℤ):ℚ) from by norm_num, nearestAway_int]

/-! ## Claim C8: Display / FromStr round-trip

Strings are modelled as `List Char`.  The digit rendering of the backing
integer type (Rust's `Display`/`FromStr` for primitive integers, external
to this crate) is modelled from its documented decimal format: an
optional `-` sign and base-10 digits, most significant first; parsing
accepts an optional leading `+` or `-` followed by one or more digits. -/

/-- Decimal digits of a natural number, most significant first (fuel-based
so it stays executable; `natChars` instantiates sufficient fuel). -/
def natCharsF : ℕ → ℕ → List Char
  | 0, _ => []
  | fuel + 1, n =>
    if n < 10 then [Nat.digitChar n]
    else natCharsF fuel (n / 10) ++ [Nat.digitChar (n % 10)]

def natChars (n : ℕ) : List Char := natCharsF (n + 1) n

/-- Rust `Display` for a signed integer: optional `-`, then digits. -/
def intChars (i : ℤ) : List Char :=
  if i < 0 then '-' :: natChars i.natAbs else natChars i.natAbs

/-- `fmt::Display for Ratio<T>` (src/lib.rs lines 1128-1140): bare
numerator when the denominator is one, else `numer/denom`. -/
def ratioChars (p : ℤ × ℤ) : List Char :=
  if p.2 = 1 then intChars p.1 else intChars p.1 ++ '/' :: intChars p.2

def charDigit (c : Char) : Option ℕ :=
  if '0' ≤ c ∧ c ≤ '9' then some (c.toNat - '0'.toNat) else none

def natFromCharsAux : ℕ → List Char → Option ℕ
  | acc, [] => some acc
  | acc, c :: rest =>
    match charDigit c with
    | none => none
    | some v => natFromCharsAux (acc * 10 + v) rest

/-- Parse a non-empty run of decimal digits. -/
def natFromChars (cs : List Char) : Option ℕ :=
  if cs = [] then none else natFromCharsAux 0 cs

/-- Rust `FromStr` for a signed integer: optional `+`/`-`, then digits. -/
def intFromChars : List Char → Option ℤ
  | [] => none
  | c :: rest =>
    if c = '-' then (natFromChars rest).map (fun (v : ℕ) => -(v : ℤ))
    else if c = '+' then (natFromChars rest).map (fun (v : ℕ) => (v : ℤ))
    else (natFromChars (c :: rest)).map (fun (v : ℕ) => (v : ℤ))

/-- Rust `s.splitn(2, '/')`: the part before the first `/`, and the rest
after it when a `/` exists. -/
def splitSlash : List Char → List Char × Option (List Char)
  | [] => ([], none)
  | c :: rest =>
    if c = '/' then ([], some rest)
    else
      let p := splitSlash rest
      (c :: p.1, p.2)

/-- The two parse faults of `ParseRatioError` (src/lib.rs). -/
inductive RatioErrKind
  | parseError
  | zeroDenominator
deriving DecidableEq

/-- `FromStr for Ratio<T>` (src/lib.rs lines 1142-1169): split on the
first `/`, parse the numerator, parse the denominator (defaulting to
`"1"`), reject a zero denominator, and build with `Ratio::new`. -/
def ratioFromChars (cs : List Char) : Except RatioErrKind (ℤ × ℤ) :=
  let sp := splitSlash cs
  match intFromChars sp.1 with
  | none => .error .parseError
  | some num =>
    match intFromChars (sp.2.getD ['1']) with
    | none => .error .parseError
    | some den =>
      if den = 0 then .error .zeroDenominator
      else
        match ratioNew num den with
        | some p => .ok p
        | none => .error .zeroDenominator

theorem charDigit_digitChar {k : ℕ} (hk : k < 10) :
    charDigit (Nat.digitChar k) = some k ∧ '0' ≤ Nat.digitChar k ∧
      Nat.digitChar k ≤ '9' := by
  interval_cases k <;> exact ⟨by decide, by decide, by decide⟩

theorem natCharsF_digits :
    ∀ (fuel n : ℕ) (c : Char), c ∈ natCharsF fuel n → '0' ≤ c ∧ c ≤ '9' := by
  intro fuel
  induction fuel with
  | zero => intro n c hc; exact absurd hc (by simp [natCharsF])
  | succ fuel ih =>
    intro n c hc
    rw [natCharsF] at hc
    by_cases h : n < 10
    · rw [if_pos h] at hc
      rcases List.mem_singleton.mp hc with rfl
      exact (charDigit_digitChar h).2
    · rw [if_neg h] at hc
      rcases List.mem_append.mp hc with h2 | h2
      · exact ih _ _ h2
      · rcases List.mem_singleton.mp h2 with rfl
        exact (charDigit_digitChar (Nat.mod_lt n (by omega))).2

theorem natFromCharsAux_append (xs ys : List Char) :
    ∀ acc, natFromCharsAux acc (xs ++ ys) =
      (natFromCharsAux acc xs).bind (fun m => natFromCharsAux m ys) := by
  induction xs with
  | nil => intro acc; rfl
  | cons c rest ih =>
    intro acc
    rw [List.cons_append, natFromCharsAux, natFromCharsAux]
    match charDigit c with
    | none => rfl
    | some v =>
      simp only
      exact ih _

theorem natFromCharsAux_roundtrip :
    ∀ (fuel n : ℕ), n < fuel → natFromCharsAux 0 (natCharsF fuel n) = some n := by
  intro fuel
  induction fuel with
  | zero => omega
  | succ fuel ih =>
    intro n hn
    rw [natCharsF]
    by_cases h : n < 10
    · rw [if_pos h, natFromCharsAux]
      rw [(charDigit_digitChar h).1]
      simp [natFromCharsAux]
    · rw [if_neg h, natFromCharsAux_append]
      have hdiv : n / 10 < fuel := by
        have h1 : n / 10 < n := Nat.div_lt_self (by omega) (by omega)
        omega
      rw [ih _ hdiv]
      simp only [Option.some_bind, natFromCharsAux]
      rw [(charDigit_digitChar (Nat.mod_lt n (by omega))).1]
      simp only [natFromCharsAux]
      congr 1
      omega

theorem natChars_ne_nil (n : ℕ) : natChars n ≠ [] := by
  unfold natChars
  rw [natCharsF]
  by_cases h : n < 10
  · rw [if_pos h]
    simp
  · rw [if_neg h]
    simp

theorem natFromChars_roundtrip (n : ℕ) : natFromChars (natChars n) = some n := by
  rw [natFromChars, if_neg (natChars_ne_nil n)]
  exact natFromCharsAux_roundtrip (n + 1) n (by omega)

theorem intFromChars_roundtrip (i : ℤ) : intFromChars (intChars i) = some i := by
  unfold intChars
  by_cases h : i < 0
  · rw [if_pos h]
    rw [intFromChars, if_pos rfl, natFromChars_roundtrip]
    simp only [Option.map_some']
    congr 1
    omega
  · rw [if_neg h]
    match hm : natChars i.natAbs with
    | [] => exact absurd hm (natChars_ne_nil _)
    | c :: rest =>
      have hdig : '0' ≤ c ∧ c ≤ '9' :=
        natCharsF_digits _ _ c (by rw [show natCharsF (i.natAbs + 1) i.natAbs = natChars i.natAbs from rfl, hm]; simp)
      rw [intFromChars, if_neg (by rintro rfl; revert hdig; decide),
        if_neg (by rintro rfl; revert hdig; decide), ← hm, natFromChars_roundtrip]
      simp only [Option.map_some']
      congr 1
      omega

theorem intChars_no_slash (i : ℤ) : ∀ c ∈ intChars i, c ≠ '/' := by
  intro c hc
  unfold intChars at hc
  by_cases h : i < 0
  · rw [if_pos h] at hc
    rcases List.mem_cons.mp hc with rfl | h2
    · decide
    · have := natCharsF_digits _ _ c h2
      rintro rfl
      revert this
      decide
  · rw [if_neg h] at hc
    have := natCharsF_digits _ _ c hc
    rintro rfl
    revert this
    decide

theorem splitSlash_no_slash {xs : List Char} (h : ∀ c ∈ xs, c ≠ '/') :
    splitSlash xs = (xs, none) := by
  induction xs with
  | nil => rfl
  | cons c rest ih =>
    rw [splitSlash, if_neg (h c (List.mem_cons_self c rest))]
    rw [ih (fun x hx => h x (List.mem_cons_of_mem c hx))]

theorem splitSlash_append {xs : List Char} (ys : List Char)
    (h : ∀ c ∈ xs, c ≠ '/') :
    splitSlash (xs ++ '/' :: ys) = (xs, some ys) := by
  induction xs with
  | nil => simp [splitSlash]
  | cons c rest ih =>
    rw [List.cons_append, splitSlash, if_neg (h c (List.mem_cons_self c rest))]
    rw [ih (fun x hx => h x (List.mem_cons_of_mem c hx))]

/-- **C8** (confirmed).  For every canonical ratio (`denom > 0`,
`gcd(numer, denom) = 1`), `Display` renders the bare numerator when the
denominator is one and `numer/denom` otherwise, and `FromStr` on that
rendering succeeds with exactly the original pair. -/
theorem C8_display_fromstr_roundtrip (n d : ℤ) (hd : 0 < d) (hcop : Int.gcd n d = 1) :
    ratioChars (n, d) =
      (if d = 1 then intChars n else intChars n ++ '/' :: intChars d) ∧
      ratioFromChars (ratioChars (n, d)) = .ok (n, d) := by
  refine ⟨rfl, ?_⟩
  unfold ratioChars
  by_cases hd1 : d = 1
  · subst hd1
    rw [if_pos rfl]
    unfold ratioFromChars
    rw [splitSlash_no_slash (intChars_no_slash n)]
    simp only [intFromChars_roundtrip, Option.getD]
    rw [show intFromChars ['1'] = some 1 from by decide]
    simp only
    rw [if_neg (by norm_num)]
    unfold ratioNew
    rw [if_neg (by norm_num), reducePair_fixed ⟨one_pos, Int.gcd_one⟩]
  · rw [if_neg (by simpa using hd1)]
    unfold ratioFromChars
    rw [splitSlash_append _ (intChars_no_slash n)]
    simp only [intFromChars_roundtrip, Option.getD]
    rw [if_neg (by omega)]
    unfold ratioNew
    rw [if_neg (by omega), reducePair_fixed ⟨hd, hcop⟩]

/-- Witness for C8 at the spec's example `3/2`. -/
theorem C8_witness :
    ratioChars (3, 2) =
      (if (2:ℤ) = 1 then intChars 3 else intChars 3 ++ '/' :: intChars 2) ∧
      ratioFromChars (ratioChars (3, 2)) = .ok (3, 2) :=
  C8_display_fromstr_roundtrip 3 2 (by decide) (by decide)

/-! ## Claim C9: float approximation

The generic float type `F` (num-traits `FloatCore`, external to the
crate) is modelled as an idealized float: `NaN`, the two infinities, and
exact rationals, with IEEE comparison semantics (`NaN` incomparable,
infinities ordered) and exact arithmetic on the finite values.  The
bounded target integer type `T` is `ℤ` with an explicit range
`[tmin, tmax]`; the `NumCast` float-to-integer conversion truncates
toward zero and fails outside the range, mirroring num-traits. -/

/-- Idealized model of the `FloatCore` type `F`. -/
inductive MF
  | nan
  | pinf
  | ninf
  | fin (q : ℚ)
deriving DecidableEq

/-- IEEE `<`: `NaN` compares false with everything. -/
def mfLt : MF → MF → Bool
  | .nan, _ => false
  | _, .nan => false
  | .ninf, .ninf => false
  | .ninf, _ => true
  | _, .ninf => false
  | .pinf, _ => false
  | .fin _, .pinf => true
  | .fin a, .fin b => decide (a < b)

def mfIsNan : MF → Bool
  | .nan => true
  | _ => false

def mfAbs : MF → MF
  | .nan => .nan
  | .pinf => .pinf
  | .ninf => .pinf
  | .fin q => .fin |q|

/-- `is_sign_negative` (the model does not track a negative zero). -/
def mfIsSignNeg : MF → Bool
  | .nan => false
  | .pinf => false
  | .ninf => true
  | .fin q => decide (q < 0)

def mfSub : MF → MF → MF
  | .nan, _ => .nan
  | _, .nan => .nan
  | .pinf, .pinf => .nan
  | .pinf, _ => .pinf
  | .ninf, .ninf => .nan
  | .ninf, _ => .ninf
  | .fin _, .pinf => .ninf
  | .fin _, .ninf => .pinf
  | .fin a, .fin b => .fin (a - b)

def mfRecip : MF → MF
  | .nan => .nan
  | .pinf => .fin 0
  | .ninf => .fin 0
  | .fin q => if q = 0 then .pinf else .fin q⁻¹

def mfDiv : MF → MF → MF
  | .nan, _ => .nan
  | _, .nan => .nan
  | .pinf, .pinf => .nan
  | .ninf, .ninf => .nan
  | .pinf, .ninf => .nan
  | .ninf, .pinf => .nan
  | .pinf, .fin _ => .pinf
  | .ninf, .fin _ => .ninf
  | .fin _, .pinf => .fin 0
  | .fin _, .ninf => .fin 0
  | .fin a, .fin b =>
    if b = 0 then (if a = 0 then .nan else if 0 < a then .pinf else .ninf)
    else .fin (a / b)

/-- `F` from `T` (exact in the model). -/
def mfOfInt (z : ℤ) : MF := .fin (z : ℚ)

/-- `NumCast` from `F` to the bounded `T`: truncate toward zero, `none`
outside `[tmin, tmax]` or for non-finite input. -/
def tCast (tmin tmax : ℤ) : MF → Option ℤ
  | .nan => none
  | .pinf => none
  | .ninf => none
  | .fin q =>
    let t : ℤ := if 0 ≤ q then ⌊q⌋ else -⌊-q⌋
    if tmin ≤ t ∧ t ≤ tmax then some t else none

/-- The convergent loop of `approximate_float_unsigned` (src/lib.rs lines
1386-1438), one source iteration per fuel step.  State is
`(n0, d0, n1, d1)`; every `break` returns the current state. -/
def afLoop (tmin tmax : ℤ) (val maxError epsilon : MF) :
    ℕ → MF → ℤ × ℤ × ℤ × ℤ → ℤ × ℤ × ℤ × ℤ
  | 0, _, st => st
  | iter + 1, q, (n0, d0, n1, d1) =>
    match tCast tmin tmax q with
    | none => (n0, d0, n1, d1)
    | some a =>
      let f := mfSub q (mfOfInt a)
      if ¬ a = 0 ∧ (n1 > tmax.tdiv a ∨ d1 > tmax.tdiv a ∨
          a * n1 > tmax - n0 ∨ a * d1 > tmax - d0) then
        (n0, d0, n1, d1)
      else
        let n := a * n1 + n0
        let d := a * d1 + d0
        let g : ℤ := Int.gcd n d
        let n1' := if g ≠ 0 then n.tdiv g else n
        let d1' := if g ≠ 0 then d.tdiv g else d
        if mfLt (mfAbs (mfSub (mfDiv (mfOfInt n) (mfOfInt d)) val)) maxError then
          (n1, d1, n1', d1')
        else if mfLt f epsilon then
          (n1, d1, n1', d1')
        else
          afLoop tmin tmax val maxError epsilon iter (mfRecip f) (n1, d1, n1', d1')

/-- `approximate_float_unsigned` (src/lib.rs lines 1354-1446): reject
negative or NaN input, reject values above `T::max_value()`, run the
convergent loop, reject a zero final denominator, else
`Ratio::new(n1, d1)`. -/
def approxFloatUnsigned (tmin tmax : ℤ) (val maxError : MF) (maxIter : ℕ) :
    Option (ℤ × ℤ) :=
  if mfLt val (.fin 0) || mfIsNan val then none
  else
    let tMaxF := mfOfInt tmax
    let epsilon := mfRecip tMaxF
    if mfLt tMaxF val then none
    else
      let st := afLoop tmin tmax val maxError epsilon maxIter val (0, 1, 1, 0)
      if st.2.2.2 = 0 then none else some (reducePair st.2.2.1 st.2.2.2)

/-- `approximate_float` (src/lib.rs lines 1334-1350): work on `|val|`,
re-negate the result when the input's sign was negative. -/
def approxFloat (tmin tmax : ℤ) (val maxError : MF) (maxIter : ℕ) :
    Option (ℤ × ℤ) :=
  let negative := mfIsSignNeg val
  let r := approxFloatUnsigned tmin tmax (mfAbs val) maxError maxIter
  if negative then r.map ratioNeg else r

/-- **C9** (confirmed).  `approximate_float` returns `none` for NaN, for
both infinities, and whenever `|v|` exceeds `T::max_value()`;
`approximate_float_unsigned` additionally returns `none` for every
negative input; and a produced result forces the input to have been
finite and inside `[0, T::max_value()]` (the functions are total, so no
input panics). -/
theorem C9_approx_float_rejections (tmin tmax : ℤ) (err : MF) (it : ℕ) (q : ℚ) :
    approxFloatUnsigned tmin tmax .nan err it = none ∧
      approxFloatUnsigned tmin tmax .ninf err it = none ∧
      approxFloatUnsigned tmin tmax .pinf err it = none ∧
      (q < 0 → approxFloatUnsigned tmin tmax (.fin q) err it = none) ∧
      ((tmax : ℚ) < q → approxFloatUnsigned tmin tmax (.fin q) err it = none) ∧
      approxFloat tmin tmax .nan err it = none ∧
      approxFloat tmin tmax .ninf err it = none ∧
      approxFloat tmin tmax .pinf err it = none ∧
      ((tmax : ℚ) < |q| → approxFloat tmin tmax (.fin q) err it = none) ∧
      ((approxFloatUnsigned tmin tmax (.fin q) err it).isSome →
        0 ≤ q ∧ q ≤ (tmax : ℚ)) := by
  have hnan : approxFloatUnsigned tmin tmax .nan err it = none := by
    unfold approxFloatUnsigned
    simp [mfIsNan, mfLt]
  have hninf : approxFloatUnsigned tmin tmax .ninf err it = none := by
    unfold approxFloatUnsigned
    simp [mfIsNan, mfLt]
  have hpinf : approxFloatUnsigned tmin tmax .pinf err it = none := by
    unfold approxFloatUnsigned
    simp [mfIsNan, mfLt, mfOfInt]
  have hneg : q < 0 → approxFloatUnsigned tmin tmax (.fin q) err it = none := by
    intro hq
    unfold approxFloatUnsigned
    simp [mfIsNan, mfLt, hq]
  have hbig : (tmax : ℚ) < q → approxFloatUnsigned tmin tmax (.fin q) err it = none := by
    intro hq
    unfold approxFloatUnsigned
    by_cases hq0 : q < 0
    · simp [mfIsNan, mfLt, hq0]
    · simp [mfIsNan, mfLt, hq0, mfOfInt, hq]
  refine ⟨hnan, hninf, hpinf, hneg, hbig, ?_, ?_, ?_, ?_, ?_⟩
  · unfold approxFloat
    simp [mfIsSignNeg, mfAbs, hnan]
  · unfold approxFloat
    simp [mfIsSignNeg, mfAbs, hpinf]
  · unfold approxFloat
    simp [mfIsSignNeg, mfAbs, hpinf]
  · intro hq
    unfold approxFloat
    have habs : mfAbs (.fin q) = .fin |q| := rfl
    have h := hbig
    have hb : approxFloatUnsigned tmin tmax (.fin |q|) err it = none := by
      unfold approxFloatUnsigned
      by_cases hq0 : |q| < 0
      · simp [mfIsNan, mfLt, hq0]
      · simp [mfIsNan, mfLt, hq0, mfOfInt, hq]
    simp [mfIsSignNeg, habs, hb]
  · intro hsome
    by_contra hc
    push_neg at hc
    rcases lt_or_le q 0 with hq | hq
    · rw [hneg hq] at hsome
      exact absurd hsome (by simp)
    · have := hc hq
      rw [hbig this] at hsome
      exact absurd hsome (by simp)

/-- Witness for C9: NaN is rejected, and `200` does not fit an 8-bit
signed backing (`tmax = 127`). -/
theorem C9_witness :
    approxFloatUnsigned (-128) 127 .nan (.fin 0) 30 = none ∧
      approxFloat (-128) 127 (.fin 200) (.fin 0) 30 = none :=
  ⟨(C9_approx_float_rejections (-128) 127 (.fin 0) 30 200).1,
    (C9_approx_float_rejections (-128) 127 (.fin 0) 30 200).2.2.2.2.2.2.2.2.1
      (by norm_num)⟩

end NumRational
